import Mathlib

/-!
# Verification of the Deterministic Content Bundling & Knowledge Encoding pipeline

Shallow embedding of the core functions of `Code_Knowledge_Prep.py`:
text sanitization and prose normalization with code-block preservation,
content-hash-derived short IDs (SHA-256 implemented in full), document
extraction outcomes, the bundle encoder's byte-budgeted serialization loop,
ignore-pattern matching with directory pruning, and the reference indexer.

Python strings are modelled as Lean `String`s (sequences of Unicode code
points, matching CPython's `str`); byte strings as `List Nat`.

The call `unicodedata.normalize('NFKC', s)` is the one library call that is
not reproduced: every definition that needs it takes the normalization
function as an explicit parameter `nfkcF : String → String`.  Universal
theorems quantify over `nfkcF`; concrete evaluations instantiate it with
`id`, and are only ever performed on strings whose code points lie below
U+00A0, where NFKC *is* the identity (such code points have no canonical or
compatibility decompositions, have combining class 0, and never occur in a
canonical composition pair, so NFKC leaves any string of them unchanged).
-/

set_option maxRecDepth 10000

namespace KnowledgePrep

/-- Tail-recursive worker for `listLen`.  Matching the incremented
accumulator against the `Nat` constructors forces it to a numeral at every
step (the `0` branch is unreachable). -/
def listLenAux : Nat → List α → Nat
  | acc, [] => acc
  | acc, _ :: xs =>
    match acc + 1 with
    | 0 => 0
    | m + 1 => listLenAux (m + 1) xs

/-- Chunked list length: counts 64 elements at a time (first argument is
fuel, one unit per chunk), keeping every single reduction chain short so
that long lists can be measured without deep recursion.  The empty-fuel
branch is unreachable when the fuel is the list itself. -/
def listLenChunks : List α → List α → Nat → Nat
  | _, [], acc => acc
  | [], _, acc => acc
  | _ :: fuel, l, acc =>
    match acc + listLenAux 0 (l.take 64) with
    | 0 => 0
    | m + 1 => listLenChunks fuel (l.drop 64) (m + 1)

/-- List length (`len`), used where the kernel must evaluate it on long
lists; equal to `List.length` (`listLen_eq`). -/
def listLen (l : List α) : Nat := listLenChunks l l 0

/-! ## Python character predicates -/

/-- The character class of the control filter
`re.compile(r"[\x00-\x08\x0B\x0C\x0E-\x1F\x7F]")` shared by `sanitize_text`
(line 45) and `_CONTROL_FILTER` (line 295). -/
def isFilteredControl (c : Char) : Bool :=
  c.toNat ≤ 0x08 || c.toNat == 0x0B || c.toNat == 0x0C ||
  (0x0E ≤ c.toNat && c.toNat ≤ 0x1F) || c.toNat == 0x7F

/-- Python's `str.strip()` / `str.isspace()` whitespace set (also the set
matched by `\s` in a unicode regex): tab through carriage return, the C0
separators 1C–1F, space, NEL (U+0085), no-break space, and the Unicode
space separators. -/
def pyIsSpaceChar (c : Char) : Bool :=
  (0x09 ≤ c.toNat && c.toNat ≤ 0x0D) || (0x1C ≤ c.toNat && c.toNat ≤ 0x1F) ||
  c.toNat == 0x20 || c.toNat == 0x85 || c.toNat == 0xA0 || c.toNat == 0x1680 ||
  (0x2000 ≤ c.toNat && c.toNat ≤ 0x200A) ||
  c.toNat == 0x2028 || c.toNat == 0x2029 || c.toNat == 0x202F ||
  c.toNat == 0x205F || c.toNat == 0x3000

/-- Python `str.strip()` with no argument. -/
def pyStripList (l : List Char) : List Char :=
  ((l.dropWhile pyIsSpaceChar).reverse.dropWhile pyIsSpaceChar).reverse

/-- Python `str.strip()` on a `String`. -/
def pyStrip (s : String) : String := String.mk (pyStripList s.data)

/-- `not s.strip()`: true iff nothing remains after stripping (computed on
the character list so the kernel can evaluate it shallowly). -/
def pyStripEmpty (s : String) : Bool := (pyStripList s.data).isEmpty

/-! ## `sanitize_text` (lines 40–47) -/

/-- `s.replace('\r\n', '\n').replace('\r', '\n')`: every CRLF pair and every
remaining lone CR becomes a single LF. -/
def fixNewlines : List Char → List Char
  | [] => []
  | '\r' :: '\n' :: rest => '\n' :: fixNewlines rest
  | '\r' :: rest => '\n' :: fixNewlines rest
  | c :: rest => c :: fixNewlines rest

/-- `sanitize_text`: NFKC normalization (the parameter `nfkcF`), newline
standardization, then removal of the filtered control characters. -/
def sanitize_text (nfkcF : String → String) (s : String) : String :=
  String.mk ((fixNewlines (nfkcF s).data).filter (fun c => !isFilteredControl c))

/-! ## `_normalize_prose` (lines 297–302) -/

/-- Worker for `re.sub(r"[ \t]+(?=\n)", '', s)`, consuming the *reversed*
input: a space or tab is deleted exactly when the output built so far starts
with a newline (everything between it and that newline was also deleted).
The accumulator is scrutinized by the match, so it stays in constructor form
and evaluation runs in constant stack space. -/
def trimRec : List Char → List Char → List Char
  | [], acc => acc
  | c :: rest, '\n' :: tl =>
    if c == ' ' || c == '\t' then trimRec rest ('\n' :: tl)
    else trimRec rest (c :: '\n' :: tl)
  | c :: rest, acc => trimRec rest (c :: acc)

/-- `re.sub(r"[ \t]+(?=\n)", '', s)`: delete every run of spaces/tabs that
immediately precedes a newline. -/
def trimLineEndWS (l : List Char) : List Char :=
  trimRec l.reverse []

/-- Worker for `re.sub(r"[ ]{2,}", ' ', s)` on the reversed input. -/
def spaceRec : List Char → List Char → List Char
  | [], acc => acc
  | c :: rest, ' ' :: tl =>
    if c == ' ' then spaceRec rest (' ' :: tl)
    else spaceRec rest (c :: ' ' :: tl)
  | c :: rest, acc => spaceRec rest (c :: acc)

/-- `re.sub(r"[ ]{2,}", ' ', s)`: collapse every run of two or more spaces to
a single space. -/
def collapseSpaces (l : List Char) : List Char :=
  spaceRec l.reverse []

/-- Worker for `re.sub(r"\n{3,}", "\n\n", s)` on the reversed input. -/
def nlRec : List Char → List Char → List Char
  | [], acc => acc
  | c :: rest, '\n' :: '\n' :: tl =>
    if c == '\n' then nlRec rest ('\n' :: '\n' :: tl)
    else nlRec rest (c :: '\n' :: '\n' :: tl)
  | c :: rest, acc => nlRec rest (c :: acc)

/-- `re.sub(r"\n{3,}", "\n\n", s)`: collapse every run of three or more
newlines to exactly two. -/
def collapseNewlines (l : List Char) : List Char :=
  nlRec l.reverse []

/-- `_normalize_prose`: the three regex substitutions followed by
`str.strip()`. -/
def _normalize_prose (s : String) : String :=
  String.mk (pyStripList (collapseNewlines (collapseSpaces (trimLineEndWS s.data))))

/-! ## `normalize_text_code_safe` (lines 304–323)

The regex `(?s)(```.*?```|@@@CODEBLOCK_START@@@.*?@@@CODEBLOCK_END@@@)`
is realized as a direct scanner: at each position the engine first tries a
fenced block (three backticks, then the *earliest* closing three backticks —
the non-greedy `.*?`), then a sentinel pair, and otherwise advances one
character.  `finditer` then resumes after the end of each match. -/

def CODE_START : List Char := "@@@CODEBLOCK_START@@@".data
def CODE_END : List Char := "@@@CODEBLOCK_END@@@".data
def fenceMarker : List Char := "```".data

/-- Tail-recursive worker for `firstOccur`; the index is forced to a numeral
at every step (the `0` branch of the inner match is unreachable). -/
def firstOccurAux (pat : List Char) : Nat → List Char → Option Nat
  | i, [] => if pat.isEmpty then some i else none
  | i, c :: rest =>
    if pat.isPrefixOf (c :: rest) then some i
    else
      match i + 1 with
      | 0 => none
      | m + 1 => firstOccurAux pat (m + 1) rest

/-- Index of the earliest occurrence of `pat` in `l`, if any. -/
def firstOccur (pat : List Char) (l : List Char) : Option Nat :=
  firstOccurAux pat 0 l

/-- Try to match `opn` + minimal body + `close` at the start of `l`;
returns (match, rest). -/
def tryDelimited (opn close l : List Char) : Option (List Char × List Char) :=
  if opn.isPrefixOf l then
    match firstOccur close (l.drop opn.length) with
    | some j => some (l.take (opn.length + j + close.length),
                      l.drop (opn.length + j + close.length))
    | none => none
  else none

/-- Tail-recursive worker for `nextMatch`; `acc` holds the reversed gap
scanned so far. -/
def nextMatchAux (acc : List Char) : List Char → Option (List Char × List Char × List Char)
  | [] => none
  | c :: rest =>
    match tryDelimited fenceMarker fenceMarker (c :: rest) with
    | some (m, r) => some (acc.reverse, m, r)
    | none =>
      match tryDelimited CODE_START CODE_END (c :: rest) with
      | some (m, r) => some (acc.reverse, m, r)
      | none => nextMatchAux (c :: acc) rest

/-- Leftmost match of the code-span regex: returns
(text before the match, the match, text after the match). -/
def nextMatch (l : List Char) : Option (List Char × List Char × List Char) :=
  nextMatchAux [] l

/-- Iterated `finditer`: the list of (gap, code span) pairs and the final
tail gap.  The first argument is fuel (one unit per match); every match
consumes at least six characters, so fuel `l` itself is always sufficient. -/
def scanAux : List Char → List Char → List (List Char × List Char) × List Char
  | [], l => ([], l)
  | _ :: fuel, l =>
    match nextMatch l with
    | none => ([], l)
    | some (pre, m, rest) =>
      let pt := scanAux fuel rest
      ((pre, m) :: pt.1, pt.2)

/-- The output assembly of `normalize_text_code_safe`: each nonempty gap is
prose-normalized, each code span is kept verbatim, a nonempty tail gap is
prose-normalized. -/
def renderPieces (ps : List (List Char × List Char)) (tail : List Char) : List Char :=
  (ps.map (fun pm =>
    (if pm.1.isEmpty then [] else (_normalize_prose (String.mk pm.1)).data) ++ pm.2)).flatten
  ++ (if tail.isEmpty then [] else (_normalize_prose (String.mk tail)).data)

/-- `normalize_text_code_safe`: sanitize, then normalize prose around code
spans. -/
def normalize_text_code_safe (nfkcF : String → String) (s : String) : String :=
  let t := (sanitize_text nfkcF s).data
  let pt := scanAux t t
  String.mk (renderPieces pt.1 pt.2)

/-! ## SHA-256 (the semantics of `hashlib.sha256(...).hexdigest()`)

Implemented in full over byte lists, with 32-bit words as `Nat` reduced
modulo `2 ^ 32`.  Verified below against the standard test vectors for the
empty message and `"abc"`. -/

def M32 : Nat := 4294967296

def rotr (x n : Nat) : Nat := (x / 2 ^ n + x % 2 ^ n * 2 ^ (32 - n)) % M32

def shaCh (e f g : Nat) : Nat := Nat.xor (Nat.land e f) (Nat.land (Nat.xor e 0xFFFFFFFF) g)
def shaMaj (a b c : Nat) : Nat := Nat.xor (Nat.xor (Nat.land a b) (Nat.land a c)) (Nat.land b c)
def bigSigma0 (x : Nat) : Nat := Nat.xor (Nat.xor (rotr x 2) (rotr x 13)) (rotr x 22)
def bigSigma1 (x : Nat) : Nat := Nat.xor (Nat.xor (rotr x 6) (rotr x 11)) (rotr x 25)
def smallSigma0 (x : Nat) : Nat := Nat.xor (Nat.xor (rotr x 7) (rotr x 18)) (x / 2 ^ 3)
def smallSigma1 (x : Nat) : Nat := Nat.xor (Nat.xor (rotr x 17) (rotr x 19)) (x / 2 ^ 10)

def K256 : List Nat :=
  [1116352408, 1899447441, 3049323471, 3921009573,
   961987163, 1508970993, 2453635748, 2870763221,
   3624381080, 310598401, 607225278, 1426881987,
   1925078388, 2162078206, 2614888103, 3248222580,
   3835390401, 4022224774, 264347078, 604807628,
   770255983, 1249150122, 1555081692, 1996064986,
   2554220882, 2821834349, 2952996808, 3210313671,
   3336571891, 3584528711, 113926993, 338241895,
   666307205, 773529912, 1294757372, 1396182291,
   1695183700, 1986661051, 2177026350, 2456956037,
   2730485921, 2820302411, 3259730800, 3345764771,
   3516065817, 3600352804, 4094571909, 275423344,
   430227734, 506948616, 659060556, 883997877,
   958139571, 1322822218, 1537002063, 1747873779,
   1955562222, 2024104815, 2227730452, 2361852424,
   2428436474, 2756734187, 3204031479, 3329325298]

/-- Message padding: a 0x80 byte, zeros to 56 mod 64, then the bit length as
eight big-endian bytes. -/
def sha256pad (msg : List Nat) : List Nat :=
  let len := listLen msg
  let zeros := (120 - (len + 1) % 64) % 64
  msg ++ [0x80] ++ List.replicate zeros 0 ++
    (List.range 8).map (fun i => len * 8 / 2 ^ (8 * (7 - i)) % 256)

/-- Split into 64-byte blocks.  The first argument is fuel (one unit per
block); a padded message is never shorter than its block count, so using the
message itself as fuel always suffices (the empty-fuel branch is then
unreachable). -/
def chunks64 : List Nat → List Nat → List (List Nat)
  | _, [] => []
  | [], l => [l]
  | _ :: fuel, l => l.take 64 :: chunks64 fuel (l.drop 64)

/-- Four big-endian bytes to one 32-bit word, over the whole list. -/
def toWords : List Nat → List Nat
  | b0 :: b1 :: b2 :: b3 :: rest => (((b0 * 256 + b1) * 256 + b2) * 256 + b3) :: toWords rest
  | _ => []

/-- One step of the message-schedule extension, on the reversed schedule. -/
def scheduleStep (wRev : List Nat) : List Nat :=
  ((smallSigma1 (wRev.getD 1 0) + wRev.getD 6 0 + smallSigma0 (wRev.getD 14 0) +
    wRev.getD 15 0) % M32) :: wRev

def buildSchedule : Nat → List Nat → List Nat
  | 0, wRev => wRev.reverse
  | n + 1, wRev => buildSchedule n (scheduleStep wRev)

structure Hash8 where
  a : Nat
  b : Nat
  c : Nat
  d : Nat
  e : Nat
  f : Nat
  g : Nat
  h : Nat

def sha256init : Hash8 :=
  ⟨0x6a09e667, 0xbb67ae85, 0x3c6ef372, 0xa54ff53a, 0x510e527f, 0x9b05688c, 0x1f83d9ab, 0x5be0cd19⟩

def compressStep (st : Hash8) (kw : Nat × Nat) : Hash8 :=
  let t1 := (st.h + bigSigma1 st.e + shaCh st.e st.f st.g + kw.1 + kw.2) % M32
  let t2 := (bigSigma0 st.a + shaMaj st.a st.b st.c) % M32
  ⟨(t1 + t2) % M32, st.a, st.b, st.c, (st.d + t1) % M32, st.e, st.f, st.g⟩

def compressBlock (hv : Hash8) (block : List Nat) : Hash8 :=
  let w := buildSchedule 48 (toWords block).reverse
  let st := (K256.zip w).foldl compressStep hv
  ⟨(hv.a + st.a) % M32, (hv.b + st.b) % M32, (hv.c + st.c) % M32, (hv.d + st.d) % M32,
   (hv.e + st.e) % M32, (hv.f + st.f) % M32, (hv.g + st.g) % M32, (hv.h + st.h) % M32⟩

/-- Force a `Nat` to a numeral before passing it on (the continuation makes
the forcing happen on the evaluation spine). -/
def forceNat (n : Nat) (k : Nat → Hash8) : Hash8 :=
  match n with
  | 0 => k 0
  | m + 1 => k (m + 1)

/-- Fold the compression function over the blocks, forcing every hash word
to a numeral after each block so no reduction chain spans more than one
block.  Equal to `List.foldl compressBlock` (`shaBlocks_eq_foldl`). -/
def shaBlocks : List (List Nat) → Hash8 → Hash8
  | [], hv => hv
  | blk :: bs, hv =>
    let st := compressBlock hv blk
    forceNat st.a fun a => forceNat st.b fun b => forceNat st.c fun c =>
    forceNat st.d fun d => forceNat st.e fun e => forceNat st.f fun f =>
    forceNat st.g fun g => forceNat st.h fun h =>
    shaBlocks bs ⟨a, b, c, d, e, f, g, h⟩

def sha256Words (msg : List Nat) : List Nat :=
  let padded := sha256pad msg
  let hv := shaBlocks (chunks64 padded padded) sha256init
  [hv.a, hv.b, hv.c, hv.d, hv.e, hv.f, hv.g, hv.h]

def hexDigitChar (n : Nat) : Char := "0123456789abcdef".data.getD n '0'

def word32Hex (w : Nat) : List Char :=
  (List.range 8).map (fun i => hexDigitChar (w / 2 ^ (4 * (7 - i)) % 16))

/-- `hashlib.sha256(msg).hexdigest()`. -/
def sha256hex (msg : List Nat) : String :=
  String.mk ((sha256Words msg).map word32Hex).flatten

/-- Python `str.encode('utf-8')`. -/
def utf8Char (c : Char) : List Nat :=
  let n := c.toNat
  if n < 0x80 then [n]
  else if n < 0x800 then [0xC0 + n / 0x40, 0x80 + n % 0x40]
  else if n < 0x10000 then [0xE0 + n / 0x1000, 0x80 + n / 0x40 % 0x40, 0x80 + n % 0x40]
  else [0xF0 + n / 0x40000, 0x80 + n / 0x1000 % 0x40, 0x80 + n / 0x40 % 0x40, 0x80 + n % 0x40]

def utf8Bytes (s : String) : List Nat :=
  (s.data.map utf8Char).flatten

/-- `stable_hash` (lines 49–51). -/
def stable_hash (content : String) : String :=
  "sha256-" ++ sha256hex (utf8Bytes content)

/-! ## `_stable_sample` (lines 338–344) -/

/-- Python slice `text[a:b]` on code points (`a b : Nat`, clamping built in). -/
def pySlice (l : List Char) (a b : Nat) : List Char := (l.drop a).take (b - a)

/-- `_stable_sample`: the whole text if short, otherwise head slice +
middle slice + tail slice. -/
def _stable_sample (text : String) (k : Nat) : String :=
  let l := text.data
  let n := listLen l
  if n ≤ k then text
  else
    let mid := n / 2
    String.mk (pySlice l 0 k ++ pySlice l (mid - k / 2) (mid + k / 2) ++ pySlice l (n - k) n)

/-! ## `IDManager` (lines 346–367) -/

def ALPHABET : List Char := "0123456789ABCDEFGHIJKLMNOPQRSTUVWXYZ".data

/-- The loop of `_int_to_base_n`, fuel-driven (for `base ≥ 2` the quotient
strictly decreases, so fuel `n + 1` always suffices). -/
def intToBaseAux : Nat → Nat → Nat → List Char
  | 0, _, _ => []
  | fuel + 1, n, base =>
    if n = 0 then []
    else intToBaseAux fuel (n / base) base ++ [ALPHABET.getD (n % base) '0']

/-- `IDManager._int_to_base_n`. -/
def _int_to_base_n (n base : Nat) : List Char :=
  if n = 0 then [ALPHABET.getD 0 '0'] else intToBaseAux (n + 1) n base

/-- `str.zfill` on a digit string: left-pad with the zero symbol, never
truncate. -/
def zfillChars (w : Nat) (s : List Char) : List Char :=
  List.replicate (w - s.length) '0' ++ s

def hexDigitVal (c : Char) : Option Nat :=
  if '0' ≤ c ∧ c ≤ '9' then some (c.toNat - '0'.toNat)
  else if 'a' ≤ c ∧ c ≤ 'f' then some (c.toNat - 'a'.toNat + 10)
  else if 'A' ≤ c ∧ c ≤ 'F' then some (c.toNat - 'A'.toNat + 10)
  else none

/-- `int(s, 16)` on a plain digit string (which is the only shape that
occurs here: a slice of a hex digest); `none` models `ValueError`. -/
def hexVal? : List Char → Option Nat
  | [] => none
  | l => l.foldl (fun acc c => acc.bind (fun a => (hexDigitVal c).map (a * 16 + ·))) (some 0)

/-- The suffix after the first occurrence of `c`, i.e. `s.split(c, 1)[1]`. -/
def afterFirst (c : Char) : List Char → List Char
  | [] => []
  | d :: rest => if d = c then rest else afterFirst c rest

/-- `IDManager.generate_short_id`.  The `try` block re-hashes the input when
there is no `'-'` (the `IndexError` fallback); `int(hash_hex, 16)` sits
*outside* the `try`, so an invalid digit raises `ValueError` out of the
function, modelled by `none`. -/
def generate_short_id (content_hash : String) (pre : String) (length : Nat) : Option String :=
  let hash_hex : List Char :=
    if content_hash.data.contains '-' then (afterFirst '-' content_hash.data).take 12
    else (sha256hex (utf8Bytes content_hash)).data.take 12
  (hexVal? hash_hex).map (fun v =>
    pre ++ String.mk (zfillChars length (_int_to_base_n v 36)))

/-! ## Path helpers and title derivation (lines 333–336, 435–438)

POSIX path semantics (`os.path.basename`, `os.path.splitext`).  The regex
classes `\w` and the `str.title()`/`str.lower()` casing are modelled
exactly on code points below U+0080 (ASCII), which covers every evaluation
in this file. -/

/-- `os.path.basename`: everything after the last `'/'`. -/
def basenameChars (l : List Char) : List Char :=
  (l.reverse.takeWhile (· ≠ '/')).reverse

def basenamePosix (p : String) : String := String.mk (basenameChars p.data)

/-- Index of the last occurrence of `c`, if any. -/
def lastIdxOf (c : Char) (l : List Char) : Option Nat :=
  match firstOccur [c] l.reverse with
  | some j => some (l.length - 1 - j)
  | none => none

/-- `os.path.splitext` on a bare filename: split at the last dot, unless
every character before that dot is itself a dot (leading-dot files have no
extension). -/
def splitextBase (base : List Char) : List Char × List Char :=
  match lastIdxOf '.' base with
  | some i => if (base.take i).any (· ≠ '.') then (base.take i, base.drop i) else (base, [])
  | none => (base, [])

/-- ASCII `str.lower()`. -/
def pyLower (s : String) : String := String.mk (s.data.map Char.toLower)

/-- The character class `[\w\s\-\.,'()&]` of `_normalize_title_from_path`:
word characters, whitespace, and the listed punctuation survive; every other
run is replaced by a single space. -/
def titleAllowChar (c : Char) : Bool :=
  c.isAlphanum || c == '_' || pyIsSpaceChar c ||
  c == '-' || c == '.' || c == ',' || c == '\'' || c == '(' || c == ')' || c == '&'

/-- `re.sub(r"[^\w\s\-\.,'()&]+", ' ', s)`: each maximal run of disallowed
characters becomes one space.  Processing from the right, a disallowed
character is dropped when its right neighbour was also disallowed (the run's
single space has already been emitted), and otherwise becomes the space. -/
def replaceBadRunsAux : List Char → List Char × Bool
  | [] => ([], false)
  | c :: rest =>
    let rb := replaceBadRunsAux rest
    if titleAllowChar c then (c :: rb.1, false)
    else if rb.2 then (rb.1, true)
    else (' ' :: rb.1, true)

def replaceBadRuns (l : List Char) : List Char := (replaceBadRunsAux l).1

/-- ASCII `str.title()`: the first letter of each run of letters is
uppercased, the rest lowercased. -/
def pyTitle (l : List Char) : List Char :=
  (l.foldl (fun st c =>
    if c.isAlpha then (st.1 ++ [if st.2 then c.toLower else c.toUpper], true)
    else (st.1 ++ [c], false)) (([] : List Char), false)).1

/-- `_normalize_title_from_path`. -/
def _normalize_title_from_path (nfkcF : String → String) (file_path : String) : String :=
  let raw_name := (splitextBase (basenamePosix file_path).data).1
  let safe := pyStripList (replaceBadRuns raw_name)
  normalize_text_code_safe nfkcF (String.mk (pyTitle safe))

/-! ## Document extractors (lines 369–483)

The extractors' own I/O and third-party calls (`open`, `fitz`, `ebooklib`,
`BeautifulSoup.get_text` with code sentinels, `mobi.extract`) are supplied
by an explicit environment; `Except.error m` models the call raising an
exception whose `str` is `m`.  Everything the Python source does around
those calls — normalization, emptiness checks, joining, error wrapping — is
reproduced.  Each extractor ends in `except Exception as e: raise
ExtractionError(f"Reason: ...")`, so its result is always an
`Except String String` and never an escaping exception. -/

structure Env where
  /-- `open(path).read()` after decode (`errors='ignore'` never raises). -/
  readTxt : String → Except String String
  /-- The per-page text of `fitz.open`; `error` = any `fitz` exception. -/
  pdfPages : String → Except String (List String)
  /-- EPUB document items as (name, body html); `error` = `read_epub` etc. raised. -/
  epubItems : String → Except String (List (String × String))
  /-- Raw HTML/TXT parts found under the MOBI unpack dir. -/
  mobiParts : String → Except String (List String)
  /-- `BeautifulSoup(...).get_text('\n')` after inserting the code sentinels
  around `pre`/`code`/`samp`/`kbd` tags. -/
  soupText : String → String
  /-- `unicodedata.normalize('NFKC', ·)`. -/
  nfkcF : String → String

/-- `_html_to_text_preserving_code` (lines 325–331). -/
def _html_to_text_preserving_code (env : Env) (html : String) : String :=
  normalize_text_code_safe env.nfkcF (env.soupText html)

/-- `extract_text_from_txt` (lines 373–386). -/
def extract_text_from_txt (env : Env) (file_path : String) : Except String String :=
  match env.readTxt file_path with
  | .error m => .error ("Reason: " ++ m)
  | .ok raw =>
    let text := normalize_text_code_safe env.nfkcF raw
    if pyStripEmpty text then .error "Reason: Empty text after normalization."
    else .ok text

/-- `extract_text_from_pdf` (lines 388–397); note the emptiness test here is
`if not text`, not `strip`. -/
def extract_text_from_pdf (env : Env) (file_path : String) : Except String String :=
  match env.pdfPages file_path with
  | .error m => .error ("Reason: " ++ m)
  | .ok pages =>
    let text := normalize_text_code_safe env.nfkcF (String.join pages)
    if text.data.isEmpty then .error "Reason: No selectable text found (likely scanned PDF)."
    else .ok text

/-- `extract_text_from_epub` (lines 399–414): skip `.css` items, keep
converted items with nonempty strip, join with blank lines. -/
def extract_text_from_epub (env : Env) (file_path : String) : Except String String :=
  match env.epubItems file_path with
  | .error m => .error ("Reason: " ++ m)
  | .ok items =>
    let parts := items.filterMap (fun nb =>
      if (pyLower nb.1).endsWith ".css" then none
      else
        let t := _html_to_text_preserving_code env nb.2
        if pyStripEmpty t then none else some t)
    if parts.isEmpty then .error "Reason: No text documents found in EPUB."
    else .ok (String.intercalate "\n\n" parts)

/-- `extract_text_from_mobi` (lines 416–433): convert every unpacked part
(no per-part emptiness filter), join with blank lines. -/
def extract_text_from_mobi (env : Env) (file_path : String) : Except String String :=
  match env.mobiParts file_path with
  | .error m => .error ("Reason: " ++ m)
  | .ok rawParts =>
    let parts := rawParts.map (_html_to_text_preserving_code env)
    if parts.isEmpty then .error "Reason: No text content found after MOBI unpack."
    else .ok (String.intercalate "\n\n" parts)

/-- The keys of `extractor_map` (lines 440–462). -/
def txtExts : List String :=
  [".txt", ".md", ".markdown", ".rst", ".csv", ".tsv", ".log", ".json", ".xml",
   ".yaml", ".yml", ".toml", ".ini", ".cfg", ".conf", ".sql", ".tex", ".rtf"]

def supportedExts : List String := txtExts ++ [".pdf", ".epub", ".mobi"]

def dispatchExtractor (env : Env) (ext file_path : String) : Except String String :=
  if ext == ".pdf" then extract_text_from_pdf env file_path
  else if ext == ".epub" then extract_text_from_epub env file_path
  else if ext == ".mobi" then extract_text_from_mobi env file_path
  else extract_text_from_txt env file_path

structure DocResult where
  short_id : String
  full_hash : String
  title : String
  text : String
deriving DecidableEq

deriving instance DecidableEq for Except

/-- `process_single_file` (lines 435–483).  The returned pair is
`(file_path, result)`; `Except.error msg` is the `{"error": msg}` dictionary.
The outer `Option` models exception escape: `none` would mean an uncaught
exception (only `int(hash_hex, 16)` could raise one, which
`process_single_file_total` below proves impossible). -/
def process_single_file (env : Env) (file_path idPre : String) :
    Option (String × Except String DocResult) :=
  let filename := basenamePosix file_path
  let title := _normalize_title_from_path env.nfkcF file_path
  let ext := pyLower (String.mk (splitextBase filename.data).2)
  if supportedExts.contains ext then
    match dispatchExtractor env ext file_path with
    | .error e => some (file_path, .error ("ExtractionError: " ++ e))
    | .ok text =>
      if pyStripEmpty text then some (file_path, .error "Extracted text is empty.")
      else
        let hash_content := normalize_text_code_safe env.nfkcF title ++ _stable_sample text 2000
        let full_hash := stable_hash hash_content
        match generate_short_id full_hash idPre 6 with
        | none => none
        | some sid => some (file_path, .ok ⟨sid, full_hash, title, text⟩)
  else some (file_path, .error "Unsupported file type")

/-! ## Bundle encoder: sequential file ids (lines 845–849)

`id_width = max(4, len(str(len(files))))` and
`file_id(i) = f"{id_prefix}{i:0{id_width}d}"` for `i = 1 .. len(files)`. -/

/-- Decimal digits of `n`, most significant first (the value of Python
`str(i)` for a nonnegative integer); fuel-driven, `decDigits` below
instantiates the fuel. -/
def decDigitsAux : Nat → Nat → List Char
  | 0, _ => []
  | fuel + 1, n =>
    if n < 10 then [Char.ofNat (48 + n)]
    else decDigitsAux fuel (n / 10) ++ [Char.ofNat (48 + n % 10)]

/-- `str(n)` for a natural number. -/
def decDigits (n : Nat) : List Char := decDigitsAux (n + 1) n

/-- `id_width`: `max(4, len(str(file_count)))`. -/
def id_width (fileCount : Nat) : Nat := max 4 (decDigits fileCount).length

/-- `file_id(i)`: the prefix followed by the 1-based index zero-padded to
`id_width` (Python's `f"{i:0{w}d}"` never truncates). -/
def file_id (idPre : String) (w i : Nat) : String :=
  idPre ++ String.mk (zfillChars w (decDigits i))

/-- The ids assigned to a bundle of `n` files, in order. -/
def bundleIds (idPre : String) (n : Nat) : List String :=
  (List.range n).map (fun i => file_id idPre (id_width n) (i + 1))

/-! ## Bundle encoder: byte-budgeted content sections (lines 924–969)

The content-section loop of `_bundle_project_worker`.  Each file carries the
pre-measured `is_binary` flag and the outcome of `path.read_bytes()` at
write time (`none` = the `except` branch).  `write_bytes = raw_full[:C]`;
a file is skipped with the "limit reached" note when
`written_total + len(write_bytes) > T`, and `written_total` grows only when
content is actually written.  (The bundle file stores
`write_bytes.decode("utf-8", errors="ignore")`, whose UTF-8 re-encoding is
never longer than `write_bytes`; the model records the bytes themselves.) -/

structure BMeta where
  is_binary : Bool
  readBytes : Option (List Nat)
deriving DecidableEq

inductive Section
  /-- `[SKIPPED] Binary content not included.` + `[No content]`. -/
  | binarySkip
  /-- `[SKIPPED] Could not read file as text.` + `[No content]`. -/
  | readErrorSkip
  /-- `[SKIPPED] Total bundle size limit reached.` + `[No content]`. -/
  | limitSkip
  /-- A content section holding `write_bytes`. -/
  | content (bytes : List Nat)
deriving DecidableEq

/-- The serialized content of a section: skip notes carry no file content. -/
def Section.contentBytes : Section → List Nat
  | .content bs => bs
  | _ => []

/-- The content-section loop: `writeSections C T files written_total`. -/
def writeSections (C T : Nat) : List BMeta → Nat → List Section
  | [], _ => []
  | m :: rest, total =>
    if m.is_binary then .binarySkip :: writeSections C T rest total
    else
      match m.readBytes with
      | none => .readErrorSkip :: writeSections C T rest total
      | some raw =>
        let wb := raw.take C
        if total + wb.length > T then .limitSkip :: writeSections C T rest total
        else .content wb :: writeSections C T rest (total + wb.length)

/-- The running `written_total` after processing a list of files. -/
def runTotal (C T : Nat) : List BMeta → Nat → Nat
  | [], total => total
  | m :: rest, total =>
    if m.is_binary then runTotal C T rest total
    else
      match m.readBytes with
      | none => runTotal C T rest total
      | some raw =>
        let wb := raw.take C
        if total + wb.length > T then runTotal C T rest total
        else runTotal C T rest (total + wb.length)

/-! ## IgnoreMatcher and traversal (lines 131–180)

`fnmatch.fnmatch` on POSIX (`normcase` is the identity): shell-style glob
matching with `*`, `?` and `[...]` classes (a leading `!` negates; an
unterminated `[` is a literal bracket).  Fuel-driven so it reduces in the
kernel; fuel `pattern length + string length + 1` always suffices. -/

/-- Parse a `[...]` class starting after the `[`: returns the negation flag,
the class characters (with ranges expanded on demand via `classMatches`),
and the rest of the pattern; `none` if there is no closing `]`. -/
def parseClass (l : List Char) : Option (Bool × List Char × List Char) :=
  let (neg, l') := match l with
    | '!' :: rest => (true, rest)
    | _ => (false, l)
  -- a `]` directly after `[` or `[!` is a literal member of the class
  let (lead, l'') := match l' with
    | ']' :: rest => ([']'], rest)
    | _ => ([], l')
  match firstOccur [']'] l'' with
  | none => none
  | some j => some (neg, lead ++ l''.take j, l''.drop (j + 1))

/-- Does character `c` match the (already extracted) class body, honouring
`a-b` ranges? -/
def classMatches : List Char → Char → Bool
  | lo :: '-' :: hi :: rest, c =>
    if rest.isEmpty && hi == ']' then lo == c || '-' == c || hi == c
    else (lo ≤ c && c ≤ hi) || classMatches rest c
  | x :: rest, c => x == c || classMatches rest c
  | [], _ => false

/-- `fnmatch.fnmatchcase(s, pat)`, fuel-driven. -/
def globMatch : Nat → List Char → List Char → Bool
  | 0, _, _ => false
  | _ + 1, [], s => s.isEmpty
  | fuel + 1, '*' :: ps, s =>
    globMatch fuel ps s ||
      (match s with
       | [] => false
       | _ :: s' => globMatch fuel ('*' :: ps) s')
  | fuel + 1, '?' :: ps, s =>
    match s with
    | [] => false
    | _ :: s' => globMatch fuel ps s'
  | fuel + 1, '[' :: ps, s =>
    match parseClass ps with
    | none =>
      -- no closing bracket: `[` is a literal
      (match s with
       | [] => false
       | c :: s' => c == '[' && globMatch fuel ps s')
    | some (neg, cls, ps') =>
      match s with
      | [] => false
      | c :: s' => (classMatches cls c != neg) && globMatch fuel ps' s'
  | fuel + 1, p :: ps, s =>
    match s with
    | [] => false
    | c :: s' => c == p && globMatch fuel ps s'

/-- `fnmatch.fnmatch(name, pat)` (POSIX, so no case folding). -/
def fnmatch (name pat : String) : Bool :=
  globMatch (pat.data.length + name.data.length + 1) pat.data name.data

/-- A path relative to the traversal root, as segments. -/
abbrev RelPath := List String

/-- `norm_for_match`: forward-slash root-relative path, directories with a
trailing `/`. -/
def norm_for_match (segs : RelPath) (isDir : Bool) : String :=
  String.intercalate "/" segs ++ (if isDir then "/" else "")

/-- The entry's bare name (last segment). -/
def relName (segs : RelPath) : String := segs.getLastD ""

/-- `s.startswith(p)` on code points. -/
def pyStartsWith (s pat : String) : Bool := pat.data.isPrefixOf s.data

/-- `s.endswith(p)` on code points. -/
def pyEndsWith (s pat : String) : Bool := pat.data.isSuffixOf s.data

/-- `should_ignore(path, root, patterns)` (lines 142–154): each pattern has
backslashes normalized to slashes; directory rules (trailing `/`) match the
name + `/`, the normalized relative path, or any path having the rule as a
literal prefix; other rules match the bare name or the relative path. -/
def should_ignore (segs : RelPath) (isDir : Bool) (patterns : List String) : Bool :=
  let name := relName segs
  let rel := norm_for_match segs isDir
  patterns.any (fun pat0 =>
    let pat := String.mk (pat0.data.map (fun c => if c == '\\' then '/' else c))
    if pyEndsWith pat "/" then
      fnmatch (name ++ "/") pat || fnmatch rel pat || pyStartsWith rel pat
    else
      fnmatch name pat || fnmatch rel pat)

/-- An in-memory filesystem tree. -/
inductive FSTree
  | file (name : String)
  | dir (name : String) (children : List FSTree)

def FSTree.name : FSTree → String
  | .file n => n
  | .dir n _ => n

def FSTree.isDir : FSTree → Bool
  | .file _ => false
  | .dir _ _ => true

/-- Stable insertion of `x` into a sorted list: `x` goes before the first
element it compares `le` to, so earlier elements stay before equal later
ones. -/
def insertLe (le : α → α → Bool) (x : α) : List α → List α
  | [] => [x]
  | y :: ys => if le x y then x :: y :: ys else y :: insertLe le x ys

/-- Stable insertion sort (the semantics of Python `sorted`). -/
def insertionSort (le : α → α → Bool) : List α → List α
  | [] => []
  | x :: xs => insertLe le x (insertionSort le xs)

/-- Python's `<` on strings: lexicographic comparison by code point. -/
def pyStrLt : List Char → List Char → Bool
  | _ :: _, [] => false
  | [], _ :: _ => true
  | [], [] => false
  | c :: cs, d :: ds => if c < d then true else if d < c then false else pyStrLt cs ds

/-- String sort key comparison (Python `sorted` on strings compares by code
points): `a ≤ b` iff `¬ (b < a)`. -/
def strLe (a b : String) : Bool := !pyStrLt b.data a.data

/-- `iter_files` (lines 172–180) on the tree model, in `os.walk(topdown)`
order: the current directory's sorted files (those not ignored), then each
surviving subdirectory in sorted order, recursively.  Directories are pruned
*before* descending (`dirs[:] = sorted([d for d in dirs if not
should_ignore(...)])`).  The first argument is fuel bounding the recursion
depth; any fuel larger than the tree depth yields the full traversal. -/
def iterFilesAux (patterns : List String) : Nat → List FSTree → RelPath → List RelPath
  | 0, _, _ => []
  | fuel + 1, children, pre =>
    let keptDirs := insertionSort (fun a b => strLe a.name b.name)
      ((children.filter (fun t => t.isDir)).filter
        (fun d => !should_ignore (pre ++ [d.name]) true patterns))
    let keptFiles := ((insertionSort (fun a b => strLe a.name b.name)
        (children.filter (fun t => !t.isDir))).filter
        (fun f => !should_ignore (pre ++ [f.name]) false patterns)).map
        (fun f => pre ++ [f.name])
    keptFiles ++ keptDirs.flatMap
      (fun d => match d with
        | .file _ => []
        | .dir nm cs => iterFilesAux patterns fuel cs (pre ++ [nm]))

/-- `iter_files(root, patterns, ...)`: relative paths of all files collected
under the root, with fuel for the tree depth. -/
def iter_files (patterns : List String) (fuel : Nat) : FSTree → List RelPath
  | .file _ => []
  | .dir _ children => iterFilesAux patterns fuel children []

/-! ## Reference indexer (`_create_reference_sheet_worker`, lines 1190–1235)

The line pattern
`^\[DocID: ([A-Z0-9]+) \((sha256-[a-f0-9]{64})\) \| Title: ([^\]]+)\]\s*$`
is realized as a direct parser: each quantified class is maximal-munch (each
is followed by a character outside the class, so greedy matching is
deterministic). -/

def isUpperDigit (c : Char) : Bool := ('A' ≤ c && c ≤ 'Z') || ('0' ≤ c && c ≤ '9')

def isLowerHex (c : Char) : Bool := ('a' ≤ c && c ≤ 'f') || ('0' ≤ c && c ≤ '9')

/-- Strip a literal from the front, or fail. -/
def eatLit (lit : List Char) (l : List Char) : Option (List Char) :=
  if lit.isPrefixOf l then some (l.drop lit.length) else none

/-- `([A-Z0-9]+)` etc.: a nonempty maximal run satisfying `p`. -/
def eatRun (p : Char → Bool) (l : List Char) : Option (List Char × List Char) :=
  let run := l.takeWhile p
  if run.isEmpty then none else some (run, l.dropWhile p)

structure RefLine where
  short_id : String
  full_hash : String
  title : String
deriving DecidableEq

/-- `doc_id_regex.match(line)`: `none` on format mismatch. -/
def parseDocIdLine (line : String) : Option RefLine := do
  let l ← eatLit "[DocID: ".data line.data
  let (idRun, l) ← eatRun isUpperDigit l
  let l ← eatLit " (sha256-".data l
  let (hexRun, l) ← eatRun isLowerHex l
  if hexRun.length ≠ 64 then none else
  let l ← eatLit ") | Title: ".data l
  let (titleRun, l) ← eatRun (fun c => c ≠ ']') l
  let l ← eatLit "]".data l
  if l.all pyIsSpaceChar then
    some ⟨String.mk idRun, "sha256-" ++ String.mk hexRun, String.mk titleRun⟩
  else none

structure RefEntry where
  title : String
  source : String
deriving DecidableEq

/-- All pattern matches over all input files, in scan order, as
`(DocID, entry)` pairs; an input is `(source file name, its lines)`. -/
def allMatches (inputs : List (String × List String)) : List (String × RefEntry) :=
  inputs.flatMap (fun src =>
    src.2.filterMap (fun line =>
      (parseDocIdLine line).map (fun r => (r.short_id, ⟨r.title, src.1⟩))))

/-- `dict.setdefault`: insert only if the key is absent (insertion order
preserved, as in a Python dict). -/
def setdefault (k : String) (v : RefEntry) (m : List (String × RefEntry)) :
    List (String × RefEntry) :=
  if m.any (fun e => e.1 == k) then m else m ++ [(k, v)]

/-- The registration loop: fold `setdefault` over all matches. -/
def buildRefs (inputs : List (String × List String)) : List (String × RefEntry) :=
  (allMatches inputs).foldl (fun m kv => setdefault kv.1 kv.2 m) []

/-- ASCII model of Python `str.lower()` on a title (`item[1]['title'].lower()`). -/
def titleKey (e : String × RefEntry) : String := pyLower e.2.title

/-- `sorted(doc_references.items(), key=...)`: stable sort by the
case-folded title. -/
def sortedRefs (inputs : List (String × List String)) : List (String × RefEntry) :=
  insertionSort (fun a b => strLe (titleKey a) (titleKey b)) (buildRefs inputs)

/-- One emitted index line:
`[DocID: <id> | Title: <title>] | [SourceFile: <name>]`. -/
def refLineOut (e : String × RefEntry) : String :=
  "[DocID: " ++ e.1 ++ " | Title: " ++ e.2.title ++ "] | [SourceFile: " ++ e.2.source ++ "]"

def REFERENCE_SHEET_HEADER : String :=
  "\n[SYSTEM INSTRUCTION]\nThis is an AI Reference Sheet, a global manifest for multiple knowledge files.\n1.  **Purpose:** This file is an index linking a document's `DocID` and `Title` to its `SourceFile`. It does not contain document text.\n2.  **Structure:** `[DocID: ... | Title: ...] | [SourceFile: ...]`\n3.  **Usage:** Use this manifest to identify which `SourceFile` contains the relevant document for a query before retrieving the content.\n4.  **Canonical Identifier:** The `DocID` is the unique identifier.\n[/SYSTEM INSTRUCTION]\n---\n"

/-- The written reference sheet; `none` when no entry was found (the worker
returns before opening the output file). -/
def referenceSheet (inputs : List (String × List String)) : Option String :=
  if (buildRefs inputs).isEmpty then none
  else some (REFERENCE_SHEET_HEADER ++ "\n--- GLOBAL DOCUMENT INDEX ---\n" ++
    String.intercalate "\n" ((sortedRefs inputs).map refLineOut) ++
    "\n--- END OF INDEX ---\n")

/-! ## Derived and spec-side definitions -/

/-- The serialized content bytes of a section list. -/
def sectionsTotal (l : List Section) : Nat :=
  (l.map (fun s => (Section.contentBytes s).length)).sum

/-- Spec-side: the Unicode `Cc` (control) category — C0 controls, DEL, and
the C1 controls U+0080–009F. -/
def isControlCc (c : Char) : Bool :=
  c.toNat < 0x20 || (0x7F ≤ c.toNat && c.toNat ≤ 0x9F)

/-- The dispatch key of `process_single_file`:
`os.path.splitext(os.path.basename(p))[1].lower()`. -/
def pyExt (p : String) : String :=
  pyLower (String.mk (splitextBase (basenamePosix p).data).2)

/-- Spec-side: the **ExtractionOutcome** sum type of the data model:
`Success(DocumentRecord) | Failure(reason)`. -/
inductive ExtractionOutcome
  | Success (d : DocResult)
  | Failure (reason : String)
deriving DecidableEq

/-- Spec-side: the outcome the specification assigns to an input path — an
unsupported extension, any extraction failure, or text empty after
normalization yield `Failure` with the corresponding reason; otherwise
`Success` with the extracted record. -/
def outcomeSpec (env : Env) (p idPre : String) : ExtractionOutcome :=
  if supportedExts.contains (pyExt p) then
    match dispatchExtractor env (pyExt p) p with
    | .error e => .Failure ("ExtractionError: " ++ e)
    | .ok text =>
      if pyStripEmpty text then .Failure "Extracted text is empty."
      else
        let title := _normalize_title_from_path env.nfkcF p
        let full_hash := stable_hash
          (normalize_text_code_safe env.nfkcF title ++ _stable_sample text 2000)
        match generate_short_id full_hash idPre 6 with
        | none => .Failure "unreachable"
        | some sid => .Success ⟨sid, full_hash, title, text⟩
  else .Failure "Unsupported file type"

/-- View of the implementation's result as an `ExtractionOutcome`. -/
def toOutcome : Except String DocResult → ExtractionOutcome
  | .error e => .Failure e
  | .ok d => .Success d

/-- The numeric value of a decimal digit string (used to prove `decDigits`
injective). -/
def decValue (l : List Char) : Nat := l.foldl (fun a c => a * 10 + (c.toNat - 48)) 0

/-- A code span produced by the scanner: a matched fenced block or a matched
sentinel pair. -/
def SpanShape (m : List Char) : Prop :=
  (∃ a, m = fenceMarker ++ a ++ fenceMarker) ∨ (∃ a, m = CODE_START ++ a ++ CODE_END)

/-- Spec-side ("keeping the first source file seen for a given DocID and
ignoring subsequent duplicates"): keep each scanned match whose DocID has
not been seen before, threading the list of already-seen DocIDs. -/
def firstWinsAux (seen : List String) : List (String × RefEntry) → List (String × RefEntry)
  | [] => []
  | kv :: rest =>
    if seen.any (fun s => s == kv.1) then firstWinsAux seen rest
    else kv :: firstWinsAux (seen ++ [kv.1]) rest

/-- C1 fixtures: two 2001-character texts that agree on their first 2000
characters and differ in the last one. -/
def c1t1 : String := String.mk (List.replicate 2000 'a' ++ ['b'])

def c1t2 : String := String.mk (List.replicate 2000 'a' ++ ['c'])

/-- An `Env` serving plain-text files from a fixed table; the other readers
fail and NFKC is the identity (the fixtures are ASCII). -/
def txtEnv (f : String → Except String String) : Env :=
  { readTxt := f, pdfPages := fun _ => .error "x",
    epubItems := fun _ => .error "x", mobiParts := fun _ => .error "x",
    soupText := id, nfkcF := id }

/-- The C1 filesystem: `p/Doc.txt` holds `c1t1`, every other path `c1t2`. -/
def c1env : Env := txtEnv (fun p => if p == "p/Doc.txt" then .ok c1t1 else .ok c1t2)

/-- A filesystem whose every text file reads `"hello"`. -/
def c1envW : Env := txtEnv (fun _ => .ok "hello")

/-- The full hash of a successful extraction (`""` otherwise). -/
def fullHashOf (r : Option (String × Except String DocResult)) : String :=
  match r with | some (_, .ok d) => d.full_hash | _ => ""

/-- The record produced for text `"hello"` under title `Doc`, prefix `DOC`. -/
def c1dw : DocResult :=
  ⟨"DOC132TDNJZBA",
   "sha256-64442c7e548627788f428387c81f8819828fb44f8e1f89f2ad44adc4a1cb2bc7",
   "Doc", "hello"⟩

/-- The C4 scenario: a root containing `build/x.txt`, `a/build/y.txt` and
`buildup/z.txt`. -/
def c4Tree : FSTree :=
  .dir "root"
    [.dir "build" [.file "x.txt"],
     .dir "a" [.dir "build" [.file "y.txt"]],
     .dir "buildup" [.file "z.txt"]]

/-! # Theorems -/

/-! ## C3: per-file and total byte caps -/

theorem writeSections_content_le (C T : Nat) :
    ∀ (files : List BMeta) (total : Nat),
      ∀ s ∈ writeSections C T files total, (Section.contentBytes s).length ≤ C := by
  intro files
  induction files with
  | nil => intro total s hs; simp [writeSections] at hs
  | cons m rest ih =>
    intro total s hs
    rw [writeSections] at hs
    split at hs
    · rcases List.mem_cons.mp hs with rfl | h
      · simp [Section.contentBytes]
      · exact ih total s h
    · split at hs
      · rcases List.mem_cons.mp hs with rfl | h
        · simp [Section.contentBytes]
        · exact ih total s h
      · dsimp only at hs
        split at hs
        · rcases List.mem_cons.mp hs with rfl | h
          · simp [Section.contentBytes]
          · exact ih total s h
        · rcases List.mem_cons.mp hs with rfl | h
          · simp only [Section.contentBytes, List.length_take]
            exact Nat.min_le_left _ _
          · exact ih _ s h

theorem writeSections_total_le (C T : Nat) :
    ∀ (files : List BMeta) (total : Nat), total ≤ T →
      total + sectionsTotal (writeSections C T files total) ≤ T := by
  intro files
  induction files with
  | nil => intro total h; simpa [writeSections, sectionsTotal] using h
  | cons m rest ih =>
    intro total h
    rw [writeSections]
    split
    · simpa [sectionsTotal, Section.contentBytes] using ih total h
    · split
      · simpa [sectionsTotal, Section.contentBytes] using ih total h
      · dsimp only
        split
        · simpa [sectionsTotal, Section.contentBytes] using ih total h
        · rename_i raw _ hlim
          have hle : total + (raw.take C).length ≤ T := Nat.le_of_not_lt hlim
          have h2 := ih (total + (raw.take C).length) hle
          simp only [sectionsTotal, List.map_cons, List.sum_cons, Section.contentBytes] at h2 ⊢
          omega

/-- C3: for every bundle run with per-file byte cap `C` and total byte cap
`T`, no single file's serialized content section contains more than `C`
bytes of file content, and the sum of content bytes over all serialized file
sections never exceeds `T`. -/
theorem C3_byte_budget_invariant (C T : Nat) (files : List BMeta) :
    (∀ s ∈ writeSections C T files 0, (Section.contentBytes s).length ≤ C) ∧
    sectionsTotal (writeSections C T files 0) ≤ T :=
  ⟨writeSections_content_le C T files 0,
   by simpa using writeSections_total_le C T files 0 (Nat.zero_le T)⟩

/-- Witness for C3 at a concrete bundle: caps 3/10, files of sizes 5, 9, 2
(the 5-byte and 9-byte files are truncated to 3; all sections fit). -/
theorem C3_byte_budget_invariant_witness :
    (∀ s ∈ writeSections 3 10
        [⟨false, some [1, 2, 3, 4, 5]⟩, ⟨false, some [1, 2, 3, 4, 5, 6, 7, 8, 9]⟩,
         ⟨true, none⟩, ⟨false, some [1, 2]⟩] 0,
      (Section.contentBytes s).length ≤ 3) ∧
    sectionsTotal (writeSections 3 10
        [⟨false, some [1, 2, 3, 4, 5]⟩, ⟨false, some [1, 2, 3, 4, 5, 6, 7, 8, 9]⟩,
         ⟨true, none⟩, ⟨false, some [1, 2]⟩] 0) ≤ 10 :=
  C3_byte_budget_invariant 3 10 _

/-! ## C2: the total cap does not latch -/

theorem writeSections_append (C T : Nat) (xs ys : List BMeta) :
    ∀ total, writeSections C T (xs ++ ys) total =
      writeSections C T xs total ++ writeSections C T ys (runTotal C T xs total) := by
  induction xs with
  | nil => intro total; simp [writeSections, runTotal]
  | cons m rest ih =>
    intro total
    simp only [List.cons_append]
    rw [writeSections, writeSections, runTotal]
    split
    · simp [ih]
    · split
      · simp [ih]
      · dsimp only
        split
        · simp [ih]
        · simp [ih]

/-- C2 (amended): a file whose capped content would push the cumulative
written-content count over `T` receives the "total bundle size limit
reached" skip note and contributes zero content bytes, and the files before
it are unaffected — but the limit is not latched: the cumulative count is
left unchanged, and the remaining files are processed against that same
count, so a later file that still fits is written normally. -/
theorem C2_amended_no_latch (C T : Nat) (xs ys : List BMeta) (m : BMeta) (raw : List Nat)
    (hbin : m.is_binary = false) (hread : m.readBytes = some raw)
    (hover : runTotal C T xs 0 + (raw.take C).length > T) :
    writeSections C T (xs ++ m :: ys) 0 =
      writeSections C T xs 0 ++ Section.limitSkip :: writeSections C T ys (runTotal C T xs 0) := by
  rw [writeSections_append]
  have h' : T < runTotal C T xs 0 + (C ⊓ raw.length) := by
    simpa [List.length_take] using hover
  simp [writeSections, hbin, hread, h']

/-- Witness for the amended C2: caps 100/10, file sizes 8, 5, 2: the 5-byte
file overflows and is skipped, the 2-byte file after it is still written. -/
theorem C2_amended_no_latch_witness :
    writeSections 100 10
        ([⟨false, some [1, 2, 3, 4, 5, 6, 7, 8]⟩] ++ ⟨false, some [1, 2, 3, 4, 5]⟩ ::
          [⟨false, some [1, 2]⟩]) 0 =
      writeSections 100 10 [⟨false, some [1, 2, 3, 4, 5, 6, 7, 8]⟩] 0 ++
        Section.limitSkip :: writeSections 100 10 [⟨false, some [1, 2]⟩]
          (runTotal 100 10 [⟨false, some [1, 2, 3, 4, 5, 6, 7, 8]⟩] 0) :=
  C2_amended_no_latch 100 10 _ _ _ [1, 2, 3, 4, 5] rfl rfl (by decide)

/-- C2 counterexample: with per-file cap 100 and total cap 10 over
non-binary readable files of sizes 8, 5 and 2, the 5-byte file exceeds the
budget and is skipped with the limit note, yet the 2-byte file *after that
point* is written with its full content — refuting "every file after that
point receives the skip note and contributes zero content bytes". -/
theorem C2_counterexample :
    writeSections 100 10
        [⟨false, some [1, 2, 3, 4, 5, 6, 7, 8]⟩, ⟨false, some [1, 2, 3, 4, 5]⟩,
         ⟨false, some [1, 2]⟩] 0 =
      [Section.content [1, 2, 3, 4, 5, 6, 7, 8], Section.limitSkip, Section.content [1, 2]] ∧
    (Section.contentBytes (Section.content [1, 2])).length ≠ 0 := by
  constructor
  · rfl
  · decide

/-! ## C4: the rule "build/" under traversal with pruning -/

/-- C4: under traversal with ignore pruning, the single rule `"build/"`
excludes `root/build/x.txt` (directory-name match prunes `build`) and
`root/a/build/y.txt` (the nested `build` directory is pruned by name match)
but not `root/buildup/z.txt`; the collected files are exactly
`buildup/z.txt`. -/
theorem C4_build_rule_pruning :
    should_ignore ["build"] true ["build/"] = true ∧
    should_ignore ["a", "build"] true ["build/"] = true ∧
    should_ignore ["buildup"] true ["build/"] = false ∧
    should_ignore ["buildup", "z.txt"] false ["build/"] = false ∧
    iter_files ["build/"] 10 c4Tree = [["buildup", "z.txt"]] := by
  refine ⟨by decide, by decide, by decide, by decide, by decide⟩

/-! ## C5: sanitize -/

/-- C5 counterexample: `sanitize_text` does *not* remove every control
character other than tab and newline — the C1 control U+0085 (NEL, Unicode
category Cc) passes through unchanged (NFKC is the identity on `"A\x85B"`,
whose code points are below U+00A0, so instantiating the normalization
parameter with `id` is exact here). -/
theorem C5_counterexample :
    sanitize_text id "A\x85B" = "A\x85B" ∧
    isControlCc '\x85' = true ∧ '\x85' ≠ '\t' ∧ '\x85' ≠ '\n' :=
  ⟨by decide, by decide, by decide, by decide⟩

theorem fixNewlines_no_cr (l : List Char) : '\r' ∉ fixNewlines l := by
  induction l using fixNewlines.induct with
  | case1 => simp [fixNewlines]
  | case2 rest ih => simpa [fixNewlines.eq_2] using ih
  | case3 rest hne ih => rw [fixNewlines.eq_3 rest hne]; simpa using ih
  | case4 d rest h1 h2 ih =>
    rw [fixNewlines.eq_4 d rest h1 h2]
    simp only [List.mem_cons]
    rintro (rfl | h)
    · exact h2 rfl
    · exact ih h

theorem fixNewlines_count (c : Char) (hc1 : c ≠ '\r') (hc2 : c ≠ '\n') (l : List Char) :
    (fixNewlines l).count c = l.count c := by
  induction l using fixNewlines.induct with
  | case1 => rfl
  | case2 rest ih =>
    rw [fixNewlines.eq_2]
    simp [List.count_cons, ih, hc1, hc2]
  | case3 rest hne ih =>
    rw [fixNewlines.eq_3 rest hne]
    simp [List.count_cons, ih, hc1, hc2]
  | case4 d rest h1 h2 ih =>
    rw [fixNewlines.eq_4 d rest h1 h2]
    simp [List.count_cons, ih]

/-- C5 (amended): on every input on which the NFKC step acts as the identity
(e.g. all code points below U+00A0), `sanitize_text` converts every CRLF
pair and every lone CR to a single LF, and removes exactly the C0 controls
other than tab and newline together with DEL (U+007F); every other
character — including the C1 controls such as U+0085 — is left in place,
with multiplicity. -/
theorem C5_amended_sanitize (f : String → String) (s : String) (hf : f s = s) :
    (sanitize_text f s).data =
      (fixNewlines s.data).filter (fun c => !isFilteredControl c) ∧
    (∀ c ∈ (sanitize_text f s).data, isFilteredControl c = false ∧ c ≠ '\r') ∧
    (∀ c : Char, c ≠ '\r' → c ≠ '\n' → isFilteredControl c = false →
      (sanitize_text f s).data.count c = s.data.count c) := by
  refine ⟨by rw [sanitize_text, hf], ?_, ?_⟩
  · intro c hc
    rw [sanitize_text, hf] at hc
    simp only [List.mem_filter, Bool.not_eq_true'] at hc
    exact ⟨hc.2, fun h => fixNewlines_no_cr s.data (h ▸ hc.1)⟩
  · intro c h1 h2 h3
    rw [sanitize_text, hf]
    simp only
    rw [List.count_filter (by simp [h3]), fixNewlines_count c h1 h2]

/-- Witness for the amended C5 at `"a \r\nb\x00\x85"` (NFKC is the identity
there, so the hypothesis holds by `rfl`): CRLF becomes LF, NUL is removed,
and the count of `'\x85'` is preserved. -/
theorem C5_amended_sanitize_witness :
    (sanitize_text id "a \r\nb\x00\x85").data =
      (fixNewlines "a \r\nb\x00\x85".data).filter (fun c => !isFilteredControl c) ∧
    (sanitize_text id "a \r\nb\x00\x85").data.count '\x85' =
      "a \r\nb\x00\x85".data.count '\x85' ∧
    sanitize_text id "a \r\nb\x00\x85" = "a \nb\x85" :=
  ⟨(C5_amended_sanitize id _ rfl).1,
   (C5_amended_sanitize id _ rfl).2.2 '\x85' (by decide) (by decide) (by decide),
   by decide⟩

/-! ## C6: code spans under `normalize_text_code_safe` -/

/-- C6 counterexample: `normalize_text_code_safe` sanitizes the *whole*
string first, so a carriage return inside a fenced code span is rewritten to
a newline — the span is not byte-identical to the input span.  (All code
points are ASCII, so `id` is exact for the NFKC step.) -/
theorem C6_counterexample :
    normalize_text_code_safe id "```a\rb```" ≠ "```a\rb```" ∧
    normalize_text_code_safe id "```a\rb```" = "```a\nb```" :=
  ⟨by decide, by decide⟩

theorem firstOccurAux_split (pat : List Char) (hpat : pat ≠ []) :
    ∀ (l : List Char) (i j : Nat), firstOccurAux pat i l = some j →
      ∃ a b, l = a ++ pat ++ b ∧ a.length + i = j := by
  intro l
  induction l with
  | nil =>
    intro i j h
    simp [firstOccurAux, List.isEmpty_iff, hpat] at h
  | cons c rest ih =>
    intro i j h
    rw [firstOccurAux] at h
    split at h
    · rename_i hpre
      obtain ⟨t, ht⟩ := List.isPrefixOf_iff_prefix.mp hpre
      exact ⟨[], t, by simp [← ht], by simpa using Option.some.inj h⟩
    · obtain ⟨a, b, hab, hlen⟩ := ih (i + 1) j h
      exact ⟨c :: a, b, by simp [hab], by simp [← hlen]; omega⟩

theorem tryDelimited_some {opn close l m r : List Char} (hcl : close ≠ [])
    (h : tryDelimited opn close l = some (m, r)) :
    (∃ a, m = opn ++ a ++ close) ∧ l = m ++ r := by
  rw [tryDelimited] at h
  split at h
  · rename_i hpre
    obtain ⟨t, ht⟩ := List.isPrefixOf_iff_prefix.mp hpre
    split at h
    · rename_i j hj
      have hdrop : l.drop opn.length = t := by rw [← ht]; exact List.drop_left _ _
      rw [hdrop] at hj
      obtain ⟨a, b, hab, hlen⟩ := firstOccurAux_split close hcl t 0 j hj
      have hl : l = (opn ++ a ++ close) ++ b := by
        rw [← ht, hab]; simp
      have hlen2 : (opn ++ a ++ close).length = opn.length + j + close.length := by
        simp [List.length_append]; omega
      obtain ⟨hm, hr⟩ := Prod.mk.injEq .. ▸ Option.some.inj h
      refine ⟨⟨a, ?_⟩, ?_⟩
      · rw [← hm, hl, List.take_left' hlen2]
      · rw [← hm, ← hr, hl, List.take_left' hlen2, List.drop_left' hlen2]
    · exact absurd h (by simp)
  · exact absurd h (by simp)

theorem nextMatchAux_split :
    ∀ (l acc pre m r : List Char), nextMatchAux acc l = some (pre, m, r) →
      pre ++ m ++ r = acc.reverse ++ l ∧ SpanShape m := by
  intro l
  induction l with
  | nil => intro acc pre m r h; simp [nextMatchAux] at h
  | cons c rest ih =>
    intro acc pre m r h
    rw [nextMatchAux] at h
    split at h
    · rename_i m' r' hm'
      obtain ⟨hsh, heq⟩ := tryDelimited_some (by decide) hm'
      simp only [Option.some.injEq, Prod.mk.injEq] at h
      obtain ⟨rfl, rfl, rfl⟩ := h
      exact ⟨by rw [List.append_assoc, ← heq], Or.inl hsh⟩
    · split at h
      · rename_i m' r' hm'
        obtain ⟨hsh, heq⟩ := tryDelimited_some (by decide) hm'
        simp only [Option.some.injEq, Prod.mk.injEq] at h
        obtain ⟨rfl, rfl, rfl⟩ := h
        exact ⟨by rw [List.append_assoc, ← heq], Or.inr hsh⟩
      · have := ih (c :: acc) pre m r h
        simpa [List.append_assoc] using this

theorem nextMatch_split {l pre m r : List Char} (h : nextMatch l = some (pre, m, r)) :
    pre ++ m ++ r = l ∧ SpanShape m := by
  simpa using nextMatchAux_split l [] pre m r h

theorem scanAux_split :
    ∀ (fuel l : List Char),
      ((scanAux fuel l).1.map (fun pm => pm.1 ++ pm.2)).flatten ++ (scanAux fuel l).2 = l ∧
      ∀ pm ∈ (scanAux fuel l).1, SpanShape pm.2 := by
  intro fuel
  induction fuel with
  | nil => intro l; simp [scanAux]
  | cons _ fuel ih =>
    intro l
    rw [scanAux]
    split
    · simp
    · rename_i pre m r hnm
      obtain ⟨hrec, hshape⟩ := nextMatch_split hnm
      obtain ⟨ih1, ih2⟩ := ih r
      constructor
      · simp only [List.map_cons, List.flatten_cons]
        rw [List.append_assoc, ih1]
        exact hrec
      · intro pm hpm
        rcases List.mem_cons.mp hpm with rfl | hpm'
        · exact hshape
        · exact ih2 pm hpm'

/-- C6 (amended): `normalize_text_code_safe` first sanitizes the whole
string, then decomposes the *sanitized* text into prose gaps and code spans
(matched fenced blocks or matched sentinel pairs) and rejoins, in original
span order, the prose-normalized gaps with the span contents kept verbatim:
the spans reassemble the sanitized text exactly, so after sanitization no
character inside a delimited span is altered. -/
theorem C6_code_spans_verbatim (f : String → String) (s : String) :
    normalize_text_code_safe f s =
      String.mk (renderPieces
        (scanAux (sanitize_text f s).data (sanitize_text f s).data).1
        (scanAux (sanitize_text f s).data (sanitize_text f s).data).2) ∧
    ((scanAux (sanitize_text f s).data (sanitize_text f s).data).1.map
        (fun pm => pm.1 ++ pm.2)).flatten ++
      (scanAux (sanitize_text f s).data (sanitize_text f s).data).2 =
      (sanitize_text f s).data ∧
    ∀ pm ∈ (scanAux (sanitize_text f s).data (sanitize_text f s).data).1, SpanShape pm.2 :=
  ⟨rfl, (scanAux_split _ _).1, (scanAux_split _ _).2⟩

/-- Witness for the amended C6 at a concrete mixed input: the scanner's
decomposition reassembles the sanitized text, and the normalized output
keeps the fenced span `"```x  y```"` verbatim between normalized prose. -/
theorem C6_code_spans_verbatim_witness :
    ((scanAux (sanitize_text id "a  b```x  y```c  d").data
        (sanitize_text id "a  b```x  y```c  d").data).1.map
      (fun pm => pm.1 ++ pm.2)).flatten ++
      (scanAux (sanitize_text id "a  b```x  y```c  d").data
        (sanitize_text id "a  b```x  y```c  d").data).2 =
      (sanitize_text id "a  b```x  y```c  d").data ∧
    normalize_text_code_safe id "a  b```x  y```c  d" = "a b```x  y```c d" :=
  ⟨(C6_code_spans_verbatim id "a  b```x  y```c  d").2.1, by decide⟩

/-! ## C7: sequential, zero-padded, pairwise-distinct file ids -/

theorem decDigitsAux_fuel :
    ∀ (n f1 f2 : Nat), n < f1 → n < f2 → decDigitsAux f1 n = decDigitsAux f2 n := by
  intro n
  induction n using Nat.strong_induction_on with
  | _ n ih =>
    intro f1 f2 h1 h2
    match f1, f2 with
    | g1 + 1, g2 + 1 =>
      rw [decDigitsAux, decDigitsAux]
      by_cases hn : n < 10
      · simp [hn]
      · have hd : n / 10 < n := Nat.div_lt_self (by omega) (by omega)
        simp only [hn, if_false]
        rw [ih (n / 10) hd g1 (n / 10 + 1) (by omega) (by omega),
            ih (n / 10) hd g2 (n / 10 + 1) (by omega) (by omega)]

theorem decDigitsAux_eq (n f : Nat) (h : n < f) : decDigitsAux f n = decDigits n :=
  decDigitsAux_fuel n f (n + 1) h (Nat.lt_succ_self n)

theorem decDigits_ne_nil (n : Nat) : decDigits n ≠ [] := by
  rw [decDigits, decDigitsAux]
  by_cases hn : n < 10 <;> simp [hn]

theorem decValue_append_digit (l : List Char) (c : Char) :
    decValue (l ++ [c]) = decValue l * 10 + (c.toNat - 48) := by
  simp [decValue, List.foldl_append]

theorem decValue_decDigits : ∀ n, decValue (decDigits n) = n := by
  intro n
  induction n using Nat.strong_induction_on with
  | _ n ih =>
    rw [decDigits, decDigitsAux]
    by_cases hn : n < 10
    · have hchar : ∀ d, d < 10 → (Char.ofNat (48 + d)).toNat = 48 + d := by decide
      simp [hn, decValue, hchar n hn]
    · have hd : n / 10 < n := Nat.div_lt_self (by omega) (by omega)
      have hm : n % 10 < 10 := Nat.mod_lt _ (by omega)
      have hchar : ∀ d, d < 10 → (Char.ofNat (48 + d)).toNat = 48 + d := by decide
      simp only [hn, if_false]
      rw [decDigitsAux_eq _ _ (by omega), decValue_append_digit, ih (n / 10) hd,
        hchar _ hm]
      omega

theorem decDigits_head_ne_zero : ∀ n, 1 ≤ n → (decDigits n).head? ≠ some '0' := by
  intro n
  induction n using Nat.strong_induction_on with
  | _ n ih =>
    intro hn
    rw [decDigits, decDigitsAux]
    by_cases h10 : n < 10
    · have : ∀ d, 1 ≤ d → d < 10 → Char.ofNat (48 + d) ≠ '0' := by decide
      simp [h10, this n hn h10]
    · have hd : n / 10 < n := Nat.div_lt_self (by omega) (by omega)
      have hd1 : 1 ≤ n / 10 := Nat.one_le_div_iff (by omega) |>.mpr (by omega)
      simp only [h10, if_false]
      rw [decDigitsAux_eq _ _ (by omega)]
      have hne := decDigits_ne_nil (n / 10)
      have hh := ih (n / 10) hd hd1
      match hm : decDigits (n / 10) with
      | [] => exact absurd hm hne
      | c :: t => rw [hm] at hh; simpa using hh

theorem dropZeros_replicate (k : Nat) (l : List Char) (hl : l.head? ≠ some '0') :
    (List.replicate k '0' ++ l).dropWhile (· == '0') = l := by
  induction k with
  | zero =>
    simp only [List.replicate, List.nil_append]
    match l, hl with
    | [], _ => rfl
    | c :: t, hl =>
      have : ¬(c == '0') = true := by
        simp only [List.head?] at hl; simpa using fun e => hl (by rw [e])
      simp [List.dropWhile, this]
  | succ k ih => simpa [List.replicate, List.dropWhile] using ih

theorem str_data_append (a b : String) : (a ++ b).data = a.data ++ b.data := by
  cases a; cases b; rfl

theorem file_id_inj (idPre : String) (w i j : Nat) (hi : 1 ≤ i) (hj : 1 ≤ j)
    (h : file_id idPre w i = file_id idPre w j) : i = j := by
  have hd := congrArg String.data h
  rw [file_id, file_id, str_data_append, str_data_append] at hd
  have hz := List.append_cancel_left hd
  simp only [String.mk] at hz
  have hdec : decDigits i = decDigits j := by
    have h1 := dropZeros_replicate (w - (decDigits i).length) (decDigits i)
      (decDigits_head_ne_zero i hi)
    have h2 := dropZeros_replicate (w - (decDigits j).length) (decDigits j)
      (decDigits_head_ne_zero j hj)
    rw [← h1, ← h2]
    exact congrArg (List.dropWhile (· == '0')) hz
  have := congrArg decValue hdec
  rwa [decValue_decDigits, decValue_decDigits] at this

/-- C7: in every bundle the file ids are exactly the prefix followed by the
1-based sequential index zero-padded to width
`max(4, digit_count(file_count))`, and they are pairwise distinct. -/
theorem C7_bundle_ids (idPre : String) (n : Nat) :
    (∀ i, i < n → (bundleIds idPre n)[i]? =
      some (idPre ++ String.mk (zfillChars (max 4 (decDigits n).length) (decDigits (i + 1))))) ∧
    (bundleIds idPre n).Nodup := by
  constructor
  · intro i hi
    simp [bundleIds, file_id, id_width, hi]
  · refine List.Nodup.map_on ?_ (List.nodup_range n)
    intro x hx y hy hf
    have := file_id_inj idPre (id_width n) (x + 1) (y + 1)
      (Nat.le_add_left 1 x) (Nat.le_add_left 1 y) hf
    omega

/-- Witness for C7 at prefix `"F"` and 12 files: the fifth id is `F0005`
(width `max 4 2 = 4`), and all twelve ids are distinct. -/
theorem C7_bundle_ids_witness :
    (bundleIds "F" 12)[4]? =
      some ("F" ++ String.mk (zfillChars (max 4 (decDigits 12).length) (decDigits 5))) ∧
    (bundleIds "F" 12).Nodup ∧
    (bundleIds "F" 12)[4]? = some "F0005" :=
  ⟨(C7_bundle_ids "F" 12).1 4 (by decide), (C7_bundle_ids "F" 12).2, by decide⟩

/-! ## C10: `generate_short_id` pads but never truncates (lines 349–367) -/

theorem intToBaseAux_fuel (base : Nat) (hb : 2 ≤ base) :
    ∀ n f1 f2, n < f1 → n < f2 → intToBaseAux f1 n base = intToBaseAux f2 n base := by
  intro n
  induction n using Nat.strong_induction_on with
  | _ n ih =>
    intro f1 f2 h1 h2
    match f1, f2 with
    | g1 + 1, g2 + 1 =>
      rw [intToBaseAux, intToBaseAux]
      by_cases hn : n = 0
      · simp [hn]
      · have hq : n / base < n := Nat.div_lt_self (Nat.pos_of_ne_zero hn) (by omega)
        simp only [hn, if_false]
        rw [ih (n / base) hq g1 (n / base + 1) (by omega) (by omega),
            ih (n / base) hq g2 (n / base + 1) (by omega) (by omega)]

theorem intToBaseAux_eq36 (n f : Nat) (h : n < f) :
    intToBaseAux f n 36 = intToBaseAux (n + 1) n 36 :=
  intToBaseAux_fuel 36 (by omega) n f (n + 1) h (Nat.lt_succ_self n)

/-- A value of at least `36 ^ L` needs strictly more than `L` base-36
digits. -/
theorem int_to_base_36_length : ∀ (L n : Nat), 36 ^ L ≤ n → L < (_int_to_base_n n 36).length := by
  intro L
  induction L with
  | zero =>
    intro n h
    rw [pow_zero] at h
    have hn : n ≠ 0 := by omega
    rw [_int_to_base_n, if_neg hn, intToBaseAux, if_neg hn]
    simp
  | succ L ih =>
    intro n h
    have h1 : 1 ≤ 36 ^ L := Nat.one_le_pow _ _ (by omega)
    have hn : n ≠ 0 := by
      have : 36 ^ L * 36 = 36 ^ (L + 1) := (pow_succ 36 L).symm
      omega
    have hdiv : 36 ^ L ≤ n / 36 := by
      rw [Nat.le_div_iff_mul_le (by omega)]
      calc 36 ^ L * 36 = 36 ^ (L + 1) := (pow_succ 36 L).symm
        _ ≤ n := h
    have hq0 : n / 36 ≠ 0 := by omega
    rw [_int_to_base_n, if_neg hn, intToBaseAux, if_neg hn,
        intToBaseAux_eq36 (n / 36) n (Nat.div_lt_self (Nat.pos_of_ne_zero hn) (by omega))]
    have hi := ih (n / 36) hdiv
    rw [_int_to_base_n, if_neg hq0] at hi
    simp only [List.length_append, List.length_cons, List.length_nil]
    omega

/-- `zfill` is the identity when the string is already long enough. -/
theorem zfill_of_le (w : Nat) (s : List Char) (h : w ≤ s.length) : zfillChars w s = s := by
  rw [zfillChars, Nat.sub_eq_zero_of_le h]
  rfl

theorem str_length_data (s : String) : s.length = s.data.length := by
  cases s; rfl

/-- C10: `generate_short_id` left-pads the base-36 re-encoding of the first
12 hex digits of the hash with `'0'` up to the requested length but never
truncates it: whenever those 12 hex digits encode a value `v ≥ 36 ^ L`, the
returned id is the prefix followed by the full (unpadded, untruncated)
base-36 digits of `v`, and it is strictly longer than `prefix.length + L` —
short ids are variable-length. -/
theorem C10_short_id_pads_never_truncates (hx pre : String) (L v : Nat)
    (hparse : hexVal? (hx.data.take 12) = some v) (hge : 36 ^ L ≤ v) :
    generate_short_id ("sha256-" ++ hx) pre L =
      some (pre ++ String.mk (_int_to_base_n v 36)) ∧
    pre.length + L < (pre ++ String.mk (_int_to_base_n v 36)).length := by
  have hdata : ("sha256-" ++ hx).data =
      's' :: 'h' :: 'a' :: '2' :: '5' :: '6' :: '-' :: hx.data := by
    rw [str_data_append]; rfl
  have hcont : (("sha256-" ++ hx).data).contains '-' = true := by
    rw [hdata]; rfl
  have hafter : afterFirst '-' (("sha256-" ++ hx).data) = hx.data := by
    rw [hdata]; rfl
  have hlen : L < (_int_to_base_n v 36).length := int_to_base_36_length L v hge
  constructor
  · simp only [generate_short_id, hcont, if_true, hafter, hparse, Option.map_some']
    rw [zfill_of_le L _ (Nat.le_of_lt hlen)]
  · have hd : (pre ++ String.mk (_int_to_base_n v 36)).data =
        pre.data ++ _int_to_base_n v 36 := str_data_append pre _
    have hp : pre.length = pre.data.length := str_length_data pre
    rw [str_length_data (pre ++ String.mk (_int_to_base_n v 36)), hd,
        List.length_append]
    omega

/-- Witness for C10 at the 48-bit all-ones hash `sha256-ffffffffffff` with
the default length 6: the base-36 encoding has 10 digits, so the id
`DOC2RRVTHNXTR` is longer than `"DOC".length + 6`. -/
theorem C10_short_id_pads_never_truncates_witness :
    (hexVal? ("ffffffffffff".data.take 12) = some 281474976710655 ∧
     36 ^ 6 ≤ 281474976710655) ∧
    (generate_short_id ("sha256-" ++ "ffffffffffff") "DOC" 6 =
       some ("DOC" ++ String.mk (_int_to_base_n 281474976710655 36)) ∧
     "DOC".length + 6 < ("DOC" ++ String.mk (_int_to_base_n 281474976710655 36)).length) ∧
    generate_short_id "sha256-ffffffffffff" "DOC" 6 = some "DOC2RRVTHNXTR" :=
  ⟨⟨of_decide_eq_true rfl, of_decide_eq_true rfl⟩,
   C10_short_id_pads_never_truncates "ffffffffffff" "DOC" 6 281474976710655
     (of_decide_eq_true rfl) (of_decide_eq_true rfl),
   of_decide_eq_true rfl⟩

/-! ## C9: extraction totality and the outcome taxonomy (lines 435–483) -/

theorem hexDigit_ok : ∀ n < 16, (hexDigitVal (hexDigitChar n)).isSome := by decide

theorem word32Hex_mem (w : Nat) (c : Char) (h : c ∈ word32Hex w) :
    (hexDigitVal c).isSome := by
  rw [word32Hex] at h
  simp only [List.mem_map, List.mem_range] at h
  obtain ⟨i, hi, rfl⟩ := h
  exact hexDigit_ok _ (Nat.mod_lt _ (by omega))

/-- Every character of a hex digest parses as a hex digit. -/
theorem sha256hex_hexDigits (msg : List Nat) (c : Char)
    (h : c ∈ (sha256hex msg).data) : (hexDigitVal c).isSome := by
  rw [sha256hex] at h
  change c ∈ ((sha256Words msg).map word32Hex).flatten at h
  simp only [List.mem_flatten, List.mem_map] at h
  obtain ⟨l, ⟨w, hw, rfl⟩, hc⟩ := h
  exact word32Hex_mem w c hc

theorem sha256hex_ne_nil (msg : List Nat) : (sha256hex msg).data ≠ [] := by
  intro h
  change ((sha256Words msg).map word32Hex).flatten = [] at h
  simp only [sha256Words, List.map_cons, List.map_nil, List.flatten_cons,
    List.flatten_nil, List.append_eq_nil] at h
  have := congrArg List.length h.1
  simp [word32Hex] at this

theorem hexFold_isSome : ∀ (l : List Char) (a : Nat),
    (∀ c ∈ l, (hexDigitVal c).isSome) →
    (l.foldl (fun acc c => acc.bind (fun a => (hexDigitVal c).map (a * 16 + ·)))
      (some a)).isSome := by
  intro l
  induction l with
  | nil => intro a _; rfl
  | cons c t ih =>
    intro a h
    obtain ⟨d, hd⟩ := Option.isSome_iff_exists.mp (h c (List.mem_cons_self c t))
    have hstep : (some a).bind (fun a => (hexDigitVal c).map (a * 16 + ·)) =
        some (a * 16 + d) := by simp [hd]
    rw [List.foldl_cons, hstep]
    exact ih _ (fun x hx => h x (List.mem_cons_of_mem c hx))

/-- `int(s, 16)` succeeds on a nonempty string of hex digits. -/
theorem hexVal?_isSome (l : List Char) (hne : l ≠ [])
    (h : ∀ c ∈ l, (hexDigitVal c).isSome) : (hexVal? l).isSome := by
  match l, hne with
  | c :: t, _ =>
    have he : hexVal? (c :: t) =
        (c :: t).foldl (fun acc c => acc.bind (fun a => (hexDigitVal c).map (a * 16 + ·)))
          (some 0) := rfl
    rw [he]
    exact hexFold_isSome (c :: t) 0 h

/-- `generate_short_id` never raises on a `stable_hash` digest: the input
contains a `'-'` and the 12 characters after it are hex digits. -/
theorem generate_short_id_stable_hash (content idPre : String) (L : Nat) :
    ∃ s, generate_short_id (stable_hash content) idPre L = some s := by
  rw [stable_hash]
  have hdata : ("sha256-" ++ sha256hex (utf8Bytes content)).data =
      's' :: 'h' :: 'a' :: '2' :: '5' :: '6' :: '-' ::
        (sha256hex (utf8Bytes content)).data := by
    rw [str_data_append]; rfl
  have hcont : (("sha256-" ++ sha256hex (utf8Bytes content)).data).contains '-' = true := by
    rw [hdata]; rfl
  have hafter : afterFirst '-' (("sha256-" ++ sha256hex (utf8Bytes content)).data) =
      (sha256hex (utf8Bytes content)).data := by
    rw [hdata]; rfl
  have htake : (sha256hex (utf8Bytes content)).data.take 12 ≠ [] := by
    intro h
    rcases hm : (sha256hex (utf8Bytes content)).data with _ | ⟨c, t⟩
    · exact sha256hex_ne_nil _ hm
    · rw [hm] at h; simp at h
  have hmem : ∀ c ∈ (sha256hex (utf8Bytes content)).data.take 12,
      (hexDigitVal c).isSome :=
    fun c hc => sha256hex_hexDigits _ c (List.take_subset 12 _ hc)
  obtain ⟨v, hv⟩ := Option.isSome_iff_exists.mp (hexVal?_isSome _ htake hmem)
  refine ⟨idPre ++ String.mk (zfillChars L (_int_to_base_n v 36)), ?_⟩
  simp only [generate_short_id, hcont, if_true, hafter, hv, Option.map_some']

/-- C9: document extraction maps every input path to exactly one outcome —
`process_single_file` always returns a `(path, result)` pair (no exception,
in particular no `ExtractionError`, ever propagates out), and the result,
read as an `ExtractionOutcome`, is exactly the outcome the specification's
taxonomy assigns: `Failure` for an unsupported extension, for any extractor
failure, or for text empty after normalization, and `Success` with the
extracted record otherwise. -/
theorem C9_extraction_total (env : Env) (p idPre : String) :
    ∃ r, process_single_file env p idPre = some (p, r) ∧
      toOutcome r = outcomeSpec env p idPre := by
  simp only [process_single_file, outcomeSpec, pyExt]
  by_cases hs : (supportedExts.contains
      (pyLower (String.mk (splitextBase (basenamePosix p).data).2))) = true
  · rw [if_pos hs, if_pos hs]
    rcases hd : dispatchExtractor env
        (pyLower (String.mk (splitextBase (basenamePosix p).data).2)) p with e | text
    · exact ⟨.error ("ExtractionError: " ++ e), rfl, rfl⟩
    · dsimp only
      by_cases ht : pyStripEmpty text = true
      · rw [if_pos ht, if_pos ht]
        exact ⟨.error "Extracted text is empty.", rfl, rfl⟩
      · rw [if_neg ht, if_neg ht]
        obtain ⟨s, hsid⟩ := generate_short_id_stable_hash
          (normalize_text_code_safe env.nfkcF (_normalize_title_from_path env.nfkcF p) ++
            _stable_sample text 2000) idPre 6
        rw [hsid]
        exact ⟨.ok ⟨s, _, _, _⟩, rfl, rfl⟩
  · rw [if_neg hs, if_neg hs]
    exact ⟨.error "Unsupported file type", rfl, rfl⟩

/-! ## C8: reference indexer (lines 1190–1235) -/

theorem pyStrLt_irrefl : ∀ a, pyStrLt a a = false := by
  intro a
  induction a with
  | nil => rfl
  | cons x xs ih => simp [pyStrLt, lt_irrefl, ih]

theorem pyStrLt_trans :
    ∀ a b c, pyStrLt a b = true → pyStrLt b c = true → pyStrLt a c = true := by
  intro a
  induction a with
  | nil =>
    intro b c hab hbc
    match b, c with
    | _ :: _, _ :: _ => rfl
    | [], _ => simp [pyStrLt] at hab
    | _ :: _, [] => simp [pyStrLt] at hbc
  | cons x xs ih =>
    intro b c hab hbc
    match b, c with
    | [], _ => simp [pyStrLt] at hab
    | _ :: _, [] => simp [pyStrLt] at hbc
    | y :: ys, z :: zs =>
      rw [pyStrLt] at hab hbc ⊢
      have hab' : x < y ∨ (x = y ∧ pyStrLt xs ys = true) := by
        by_cases h1 : x < y
        · exact Or.inl h1
        · by_cases h2 : y < x
          · rw [if_neg h1, if_pos h2] at hab; exact absurd hab (by simp)
          · rw [if_neg h1, if_neg h2] at hab
            exact Or.inr ⟨le_antisymm (not_lt.mp h2) (not_lt.mp h1), hab⟩
      have hbc' : y < z ∨ (y = z ∧ pyStrLt ys zs = true) := by
        by_cases h1 : y < z
        · exact Or.inl h1
        · by_cases h2 : z < y
          · rw [if_neg h1, if_pos h2] at hbc; exact absurd hbc (by simp)
          · rw [if_neg h1, if_neg h2] at hbc
            exact Or.inr ⟨le_antisymm (not_lt.mp h2) (not_lt.mp h1), hbc⟩
      rcases hab' with h1 | ⟨he1, hxs⟩
      · rcases hbc' with h2 | ⟨he2, hys⟩
        · rw [if_pos (lt_trans h1 h2)]
        · subst he2
          rw [if_pos h1]
      · subst he1
        rcases hbc' with h2 | ⟨he2, hys⟩
        · rw [if_pos h2]
        · subst he2
          rw [if_neg (lt_irrefl x), if_neg (lt_irrefl x)]
          exact ih ys zs hxs hys

theorem pyStrLt_connex : ∀ a b, pyStrLt a b = true ∨ pyStrLt b a = true ∨ a = b := by
  intro a
  induction a with
  | nil =>
    intro b
    match b with
    | [] => exact Or.inr (Or.inr rfl)
    | _ :: _ => exact Or.inl rfl
  | cons x xs ih =>
    intro b
    match b with
    | [] => exact Or.inr (Or.inl rfl)
    | y :: ys =>
      rcases lt_trichotomy x y with h | h | h
      · exact Or.inl (by rw [pyStrLt, if_pos h])
      · subst h
        rcases ih ys with h2 | h2 | h2
        · exact Or.inl
            (by rw [pyStrLt, if_neg (lt_irrefl x), if_neg (lt_irrefl x)]; exact h2)
        · exact Or.inr (Or.inl
            (by rw [pyStrLt, if_neg (lt_irrefl x), if_neg (lt_irrefl x)]; exact h2))
        · exact Or.inr (Or.inr (by rw [h2]))
      · exact Or.inr (Or.inl (by rw [pyStrLt, if_pos h]))

theorem pyStrLt_asymm (a b : List Char) (h : pyStrLt a b = true) :
    pyStrLt b a = false := by
  cases hx : pyStrLt b a with
  | false => rfl
  | true =>
    have := pyStrLt_trans a b a h hx
    rw [pyStrLt_irrefl] at this
    exact absurd this (by simp)

theorem strLe_total (a b : String) : strLe a b = true ∨ strLe b a = true := by
  cases h : pyStrLt b.data a.data with
  | false => exact Or.inl (by simp [strLe, h])
  | true => exact Or.inr (by simp [strLe, pyStrLt_asymm _ _ h])

theorem strLe_trans (a b c : String) (h1 : strLe a b = true) (h2 : strLe b c = true) :
    strLe a c = true := by
  rw [strLe] at h1 h2 ⊢
  simp only [Bool.not_eq_true'] at h1 h2 ⊢
  cases hx : pyStrLt c.data a.data with
  | false => rfl
  | true =>
    rcases pyStrLt_connex b.data a.data with h | h | h
    · rw [h1] at h; exact absurd h (by simp)
    · have := pyStrLt_trans _ _ _ hx h
      rw [h2] at this; exact absurd this (by simp)
    · rw [← h] at hx
      rw [h2] at hx; exact absurd hx (by simp)

theorem insertLe_perm (le : α → α → Bool) (x : α) :
    ∀ l, (insertLe le x l).Perm (x :: l) := by
  intro l
  induction l with
  | nil => exact List.Perm.refl _
  | cons y ys ih =>
    rw [insertLe]
    by_cases h : le x y = true
    · rw [if_pos h]
    · rw [if_neg h]
      exact (ih.cons y).trans (List.Perm.swap x y ys)

theorem insertionSort_perm (le : α → α → Bool) :
    ∀ l, (insertionSort le l).Perm l := by
  intro l
  induction l with
  | nil => exact List.Perm.refl _
  | cons x xs ih =>
    rw [insertionSort]
    exact (insertLe_perm le x _).trans (ih.cons x)

theorem insertLe_pairwise (le : α → α → Bool)
    (htot : ∀ a b, le a b = true ∨ le b a = true)
    (htrans : ∀ a b c, le a b = true → le b c = true → le a c = true) (x : α) :
    ∀ l, l.Pairwise (fun a b => le a b = true) →
      (insertLe le x l).Pairwise (fun a b => le a b = true) := by
  intro l
  induction l with
  | nil => intro _; exact List.pairwise_singleton _ _
  | cons y ys ih =>
    intro hp
    rw [insertLe]
    rcases List.pairwise_cons.mp hp with ⟨hy, hys⟩
    by_cases h : le x y = true
    · rw [if_pos h]
      refine List.pairwise_cons.mpr ⟨?_, hp⟩
      intro z hz
      rcases List.mem_cons.mp hz with rfl | hz'
      · exact h
      · exact htrans x y z h (hy z hz')
    · rw [if_neg h]
      refine List.pairwise_cons.mpr ⟨?_, ih hys⟩
      intro z hz
      have hmem := (insertLe_perm le x ys).mem_iff.mp hz
      rcases List.mem_cons.mp hmem with hz1 | hz'
      · subst hz1
        rcases htot z y with h1 | h1
        · exact absurd h1 h
        · exact h1
      · exact hy z hz'

theorem insertionSort_pairwise (le : α → α → Bool)
    (htot : ∀ a b, le a b = true ∨ le b a = true)
    (htrans : ∀ a b c, le a b = true → le b c = true → le a c = true) :
    ∀ l, (insertionSort le l).Pairwise (fun a b => le a b = true) := by
  intro l
  induction l with
  | nil => exact List.Pairwise.nil
  | cons x xs ih =>
    rw [insertionSort]
    exact insertLe_pairwise le htot htrans x _ ih

theorem listAnyMap (f : α → β) (p : β → Bool) :
    ∀ l : List α, (l.map f).any p = l.any (fun a => p (f a)) := by
  intro l
  induction l with
  | nil => rfl
  | cons a t ih => simp [ih]

theorem buildRefs_fold (l : List (String × RefEntry)) : ∀ m,
    l.foldl (fun m kv => setdefault kv.1 kv.2 m) m =
      m ++ firstWinsAux (m.map Prod.fst) l := by
  induction l with
  | nil => intro m; simp [firstWinsAux]
  | cons kv rest ih =>
    intro m
    rw [List.foldl_cons, setdefault, firstWinsAux]
    by_cases h : m.any (fun e => e.1 == kv.1) = true
    · have h2 : (m.map Prod.fst).any (fun s => s == kv.1) = true := by
        rw [listAnyMap]; exact h
      rw [if_pos h, if_pos h2, ih m]
    · have h2 : ¬ (m.map Prod.fst).any (fun s => s == kv.1) = true := by
        rw [listAnyMap]; exact h
      rw [if_neg h, if_neg h2, ih (m ++ [kv]), List.map_append]
      simp [List.append_assoc]

theorem firstWinsAux_keys : ∀ (l : List (String × RefEntry)) (seen : List String),
    ((firstWinsAux seen l).map Prod.fst).Nodup ∧
    ∀ k ∈ (firstWinsAux seen l).map Prod.fst, k ∉ seen := by
  intro l
  induction l with
  | nil => intro seen; exact ⟨List.nodup_nil, by simp [firstWinsAux]⟩
  | cons kv rest ih =>
    intro seen
    rw [firstWinsAux]
    by_cases h : seen.any (fun s => s == kv.1) = true
    · rw [if_pos h]; exact ih seen
    · rw [if_neg h]
      obtain ⟨ihnd, ihmem⟩ := ih (seen ++ [kv.1])
      have hnotin : kv.1 ∉ seen := by
        intro hin
        exact h (List.any_eq_true.mpr ⟨kv.1, hin, by simp⟩)
      constructor
      · rw [List.map_cons]
        refine List.nodup_cons.mpr ⟨?_, ihnd⟩
        intro hc
        have := ihmem kv.1 hc
        simp at this
      · intro k hk
        rw [List.map_cons] at hk
        rcases List.mem_cons.mp hk with rfl | hk'
        · exact hnotin
        · intro hkseen
          exact (ihmem k hk') (List.mem_append_left _ hkseen)

theorem firstWinsAux_find :
    ∀ (l : List (String × RefEntry)) (seen : List String) (k : String),
      ¬ seen.any (fun s => s == k) = true →
      (firstWinsAux seen l).find? (fun e => e.1 == k) =
        l.find? (fun e => e.1 == k) := by
  intro l
  induction l with
  | nil => intro seen k _; rfl
  | cons kv rest ih =>
    intro seen k hk
    rw [firstWinsAux]
    by_cases hkey : kv.1 = k
    · by_cases h : seen.any (fun s => s == kv.1) = true
      · exact absurd (hkey ▸ h) hk
      · rw [if_neg h, List.find?_cons_of_pos _ (by simp [hkey]),
            List.find?_cons_of_pos _ (by simp [hkey])]
    · by_cases h : seen.any (fun s => s == kv.1) = true
      · rw [if_pos h, List.find?_cons_of_neg _ (by simp [hkey]), ih seen k hk]
      · rw [if_neg h, List.find?_cons_of_neg _ (by simp [hkey]),
            List.find?_cons_of_neg _ (by simp [hkey])]
        refine ih (seen ++ [kv.1]) k ?_
        intro hany
        rw [List.any_append] at hany
        rcases Bool.or_eq_true_iff.mp hany with hs | hs
        · exact hk hs
        · rw [List.any_cons, List.any_nil] at hs
          simp [hkey] at hs

/-- C8: the reference indexer keeps, for each DocID, exactly the entry from
the first source file (in scan order) in which that DocID was seen —
`buildRefs` equals the spec-side first-wins filter of all matches, its
DocIDs are pairwise distinct, and the retained entry for any DocID is the
first match for it in scan order — and the emitted manifest lists exactly
the retained entries (a permutation), sorted case-insensitively by title,
between the fixed header and footer. -/
theorem C8_reference_index (inputs : List (String × List String)) :
    buildRefs inputs = firstWinsAux [] (allMatches inputs) ∧
    ((buildRefs inputs).map Prod.fst).Nodup ∧
    (∀ k, (buildRefs inputs).find? (fun e => e.1 == k) =
          (allMatches inputs).find? (fun e => e.1 == k)) ∧
    (sortedRefs inputs).Perm (buildRefs inputs) ∧
    (sortedRefs inputs).Pairwise
      (fun a b => strLe (titleKey a) (titleKey b) = true) ∧
    referenceSheet inputs = (if buildRefs inputs = [] then none else
      some (REFERENCE_SHEET_HEADER ++ "\n--- GLOBAL DOCUMENT INDEX ---\n" ++
        String.intercalate "\n" ((sortedRefs inputs).map refLineOut) ++
        "\n--- END OF INDEX ---\n")) := by
  have heq : buildRefs inputs = firstWinsAux [] (allMatches inputs) := by
    rw [buildRefs, buildRefs_fold (allMatches inputs) []]
    rfl
  refine ⟨heq, ?_, ?_, ?_, ?_, ?_⟩
  · rw [heq]; exact (firstWinsAux_keys (allMatches inputs) []).1
  · intro k
    rw [heq]
    exact firstWinsAux_find (allMatches inputs) [] k (by simp)
  · rw [sortedRefs]
    exact insertionSort_perm _ _
  · rw [sortedRefs]
    exact insertionSort_pairwise _
      (fun a b => strLe_total (titleKey a) (titleKey b))
      (fun a b c => strLe_trans (titleKey a) (titleKey b) (titleKey c)) _
  · by_cases h : buildRefs inputs = []
    · simp [referenceSheet, h]
    · rw [if_neg h, referenceSheet,
          if_neg (by simpa [List.isEmpty_iff] using h)]

/-! ## C1: DocID determinism and the `_stable_sample` key (lines 338–344, 435–483) -/

/-- Inversion of a successful `process_single_file`: the full hash is the
stable hash of the normalized title followed by the 2000-character stable
sample of the text, and the short id is the one generated from that hash. -/
theorem psf_ok_inv (env : Env) (p idPre : String) (d : DocResult)
    (h : process_single_file env p idPre = some (p, .ok d)) :
    d.full_hash = stable_hash
      (normalize_text_code_safe env.nfkcF d.title ++ _stable_sample d.text 2000) ∧
    generate_short_id d.full_hash idPre 6 = some d.short_id := by
  simp only [process_single_file] at h
  split at h
  · split at h
    · simp at h
    · split at h
      · simp at h
      · split at h
        · simp at h
        · rename_i sid hsid
          simp only [Option.some.injEq, Prod.mk.injEq, Except.ok.injEq] at h
          obtain ⟨-, hd⟩ := h
          subst hd
          exact ⟨rfl, hsid⟩
  · simp at h

/-- C1 (amended): DocIDs are deterministic in exactly the hashed key — for
any two successful plain-text extractions (possibly from different
filesystems and different paths) whose normalized titles agree and whose
2000-character stable samples agree, the full hashes and the short ids
coincide; the storage path enters only through the title. -/
theorem C1_amended_ids (envA envB : Env) (p1 p2 idPre : String) (d1 d2 : DocResult)
    (h1 : process_single_file envA p1 idPre = some (p1, .ok d1))
    (h2 : process_single_file envB p2 idPre = some (p2, .ok d2))
    (htitle : normalize_text_code_safe envA.nfkcF d1.title =
              normalize_text_code_safe envB.nfkcF d2.title)
    (hsample : _stable_sample d1.text 2000 = _stable_sample d2.text 2000) :
    d1.full_hash = d2.full_hash ∧ d1.short_id = d2.short_id := by
  obtain ⟨hf1, hs1⟩ := psf_ok_inv envA p1 idPre d1 h1
  obtain ⟨hf2, hs2⟩ := psf_ok_inv envB p2 idPre d2 h2
  have hfh : d1.full_hash = d2.full_hash := by
    rw [hf1, hf2, htitle, hsample]
  refine ⟨hfh, ?_⟩
  rw [hfh] at hs1
  rw [hs1] at hs2
  exact Option.some.inj hs2

/-- Witness for the amended C1: the same `"hello"` document stored at the
two different paths `p/Doc.txt` and `q/Doc.txt` receives the same DocID. -/
theorem C1_amended_ids_witness :
    process_single_file c1envW "p/Doc.txt" "DOC" = some ("p/Doc.txt", .ok c1dw) ∧
    process_single_file c1envW "q/Doc.txt" "DOC" = some ("q/Doc.txt", .ok c1dw) ∧
    (c1dw.full_hash = c1dw.full_hash ∧ c1dw.short_id = c1dw.short_id) :=
  ⟨of_decide_eq_true rfl, of_decide_eq_true rfl,
   C1_amended_ids c1envW c1envW "p/Doc.txt" "q/Doc.txt" "DOC" c1dw c1dw
     (of_decide_eq_true rfl) (of_decide_eq_true rfl) rfl rfl⟩

/-! ### Symbolic evaluation of the pipeline on the C1 fixtures

The fixtures are 2001 characters long, so instead of kernel-evaluating the
whole pipeline the following lemmas show that sanitization, code-span
scanning and prose normalization are the identity on strings of plain
letters, and reduce the hashed sample to a compact `List.replicate` form;
only the two SHA-256 digests themselves are then computed by `decide`. -/

theorem trimRec_shift (c : Char) (rest acc : List Char) (h1 : c ≠ ' ') (h2 : c ≠ '\t') :
    trimRec (c :: rest) acc = trimRec rest (c :: acc) := by
  match acc with
  | [] => rfl
  | a :: tl =>
    by_cases ha : a = '\n'
    · subst ha
      have hb : (c == ' ' || c == '\t') = false := by simp [h1, h2]
      rw [trimRec]
      simp [hb]
    · rw [trimRec.eq_3]
      intro x hx
      injection hx with h h'
      exact ha h

theorem spaceRec_shift (c : Char) (rest acc : List Char) (h1 : c ≠ ' ') :
    spaceRec (c :: rest) acc = spaceRec rest (c :: acc) := by
  match acc with
  | [] => rfl
  | a :: tl =>
    by_cases ha : a = ' '
    · subst ha
      have hb : (c == ' ') = false := by simp [h1]
      rw [spaceRec]
      simp [hb]
    · rw [spaceRec.eq_3]
      intro x hx
      injection hx with h h'
      exact ha h

theorem nlRec_shift (c : Char) (rest acc : List Char) (hc : c ≠ '\n') :
    nlRec (c :: rest) acc = nlRec rest (c :: acc) := by
  match acc with
  | [] => rfl
  | a :: tl =>
    by_cases ha : a = '\n'
    · subst ha
      match tl with
      | [] => rfl
      | b :: tl2 =>
        by_cases hb : b = '\n'
        · subst hb
          have hcb : (c == '\n') = false := by simp [hc]
          rw [nlRec]
          simp [hcb]
        · rw [nlRec.eq_3]
          intro x hx
          injection hx with g1 g2
          injection g2 with g3 g4
          exact hb g3
    · rw [nlRec.eq_3]
      intro x hx
      injection hx with g1 g2
      exact ha g1

theorem trimRec_run : ∀ (l : List Char), (∀ c ∈ l, c ≠ ' ' ∧ c ≠ '\t') →
    ∀ acc, trimRec l acc = l.reverse ++ acc := by
  intro l
  induction l with
  | nil => intro _ acc; simp [trimRec]
  | cons c rest ih =>
    intro h acc
    obtain ⟨h1, h2⟩ := h c (List.mem_cons_self c rest)
    rw [trimRec_shift c rest acc h1 h2,
        ih (fun d hd => h d (List.mem_cons_of_mem c hd)) (c :: acc)]
    simp

theorem spaceRec_run : ∀ (l : List Char), (∀ c ∈ l, c ≠ ' ') →
    ∀ acc, spaceRec l acc = l.reverse ++ acc := by
  intro l
  induction l with
  | nil => intro _ acc; simp [spaceRec]
  | cons c rest ih =>
    intro h acc
    rw [spaceRec_shift c rest acc (h c (List.mem_cons_self c rest)),
        ih (fun d hd => h d (List.mem_cons_of_mem c hd)) (c :: acc)]
    simp

theorem nlRec_run : ∀ (l : List Char), (∀ c ∈ l, c ≠ '\n') →
    ∀ acc, nlRec l acc = l.reverse ++ acc := by
  intro l
  induction l with
  | nil => intro _ acc; simp [nlRec]
  | cons c rest ih =>
    intro h acc
    rw [nlRec_shift c rest acc (h c (List.mem_cons_self c rest)),
        ih (fun d hd => h d (List.mem_cons_of_mem c hd)) (c :: acc)]
    simp

theorem trimLineEndWS_noop (l : List Char) (h : ∀ c ∈ l, c ≠ ' ' ∧ c ≠ '\t') :
    trimLineEndWS l = l := by
  rw [trimLineEndWS, trimRec_run l.reverse (fun c hc => h c (List.mem_reverse.mp hc)) []]
  simp

theorem collapseSpaces_noop (l : List Char) (h : ∀ c ∈ l, c ≠ ' ') :
    collapseSpaces l = l := by
  rw [collapseSpaces, spaceRec_run l.reverse (fun c hc => h c (List.mem_reverse.mp hc)) []]
  simp

theorem collapseNewlines_noop (l : List Char) (h : ∀ c ∈ l, c ≠ '\n') :
    collapseNewlines l = l := by
  rw [collapseNewlines, nlRec_run l.reverse (fun c hc => h c (List.mem_reverse.mp hc)) []]
  simp

theorem fixNewlines_noop : ∀ (l : List Char), (∀ c ∈ l, c ≠ '\r') → fixNewlines l = l := by
  intro l
  induction l using fixNewlines.induct with
  | case1 => intro _; rfl
  | case2 rest ih => intro h; exact absurd rfl (h '\r' (by simp))
  | case3 rest ih => intro h; exact absurd rfl (h '\r' (by simp))
  | case4 c rest h1 h2 ih =>
    intro h
    simp only [fixNewlines]
    rw [ih (fun d hd => h d (List.mem_cons_of_mem c hd))]

theorem dropWhile_noop (p : Char → Bool) :
    ∀ (l : List Char), (∀ c ∈ l, p c = false) → l.dropWhile p = l := by
  intro l h
  match l with
  | [] => rfl
  | c :: rest =>
    rw [List.dropWhile_cons]
    simp [h c (List.mem_cons_self c rest)]

theorem pyStripList_noop (l : List Char) (h : ∀ c ∈ l, pyIsSpaceChar c = false) :
    pyStripList l = l := by
  rw [pyStripList, dropWhile_noop _ l h,
      dropWhile_noop _ l.reverse (fun c hc => h c (List.mem_reverse.mp hc)),
      List.reverse_reverse]

theorem tryDelimited_none_fence (c : Char) (rest : List Char) (hc : c ≠ '`') :
    tryDelimited fenceMarker fenceMarker (c :: rest) = none := by
  have hp : fenceMarker.isPrefixOf (c :: rest) = false := by
    show (('`' :: '`' :: '`' :: []).isPrefixOf (c :: rest)) = false
    simp [List.isPrefixOf, Ne.symm hc]
  rw [tryDelimited, hp]
  rfl

theorem tryDelimited_none_code (c : Char) (rest : List Char) (hc : c ≠ '@') :
    tryDelimited CODE_START CODE_END (c :: rest) = none := by
  have hp : CODE_START.isPrefixOf (c :: rest) = false := by
    show (('@' :: "@@CODEBLOCK_START@@@".data).isPrefixOf (c :: rest)) = false
    simp [List.isPrefixOf, Ne.symm hc]
  rw [tryDelimited, hp]
  rfl

theorem nextMatchAux_none : ∀ (l : List Char), (∀ c ∈ l, c ≠ '`' ∧ c ≠ '@') →
    ∀ acc, nextMatchAux acc l = none := by
  intro l
  induction l with
  | nil => intro _ acc; rfl
  | cons c rest ih =>
    intro h acc
    obtain ⟨h1, h2⟩ := h c (List.mem_cons_self c rest)
    rw [nextMatchAux, tryDelimited_none_fence c rest h1, tryDelimited_none_code c rest h2]
    exact ih (fun d hd => h d (List.mem_cons_of_mem c hd)) (c :: acc)

theorem scanAux_of_none (l : List Char) (h : nextMatch l = none) :
    ∀ fuel, scanAux fuel l = ([], l) := by
  intro fuel
  match fuel with
  | [] => rfl
  | f :: fs => rw [scanAux, h]

theorem str_mk_data (s : String) : String.mk s.data = s := by
  cases s; rfl

/-- `_normalize_prose` is the identity on strings without whitespace. -/
theorem prose_plain_noop (s : String)
    (h : ∀ c ∈ s.data, pyIsSpaceChar c = false ∧ c ≠ '\n') :
    _normalize_prose s = s := by
  have hsp : ∀ c ∈ s.data, c ≠ ' ' ∧ c ≠ '\t' := by
    intro c hc
    have := (h c hc).1
    constructor
    · intro he; subst he; simp [pyIsSpaceChar] at this
    · intro he; subst he; simp [pyIsSpaceChar] at this
  rw [_normalize_prose, trimLineEndWS_noop s.data hsp,
      collapseSpaces_noop s.data (fun c hc => (hsp c hc).1),
      collapseNewlines_noop s.data (fun c hc => (h c hc).2),
      pyStripList_noop s.data (fun c hc => (h c hc).1), str_mk_data]

/-- `normalize_text_code_safe` is the identity on strings of plain
characters: no carriage return, no filtered control, no whitespace, no
backtick, no `@`. -/
theorem ntcs_plain_noop (s : String)
    (h : ∀ c ∈ s.data, c ≠ '\r' ∧ isFilteredControl c = false ∧
      pyIsSpaceChar c = false ∧ c ≠ '\n' ∧ c ≠ '`' ∧ c ≠ '@') :
    normalize_text_code_safe id s = s := by
  have hsan : sanitize_text id s = s := by
    rw [sanitize_text]
    show String.mk ((fixNewlines s.data).filter fun c => !isFilteredControl c) = s
    rw [fixNewlines_noop s.data (fun c hc => (h c hc).1),
        List.filter_eq_self.mpr (fun c hc => by simp [(h c hc).2.1]), str_mk_data]
  have hnm : nextMatch s.data = none :=
    nextMatchAux_none s.data
      (fun c hc => ⟨(h c hc).2.2.2.2.1, (h c hc).2.2.2.2.2⟩) []
  simp only [normalize_text_code_safe, hsan]
  rw [scanAux_of_none s.data hnm s.data]
  simp only [renderPieces, List.map_nil, List.flatten_nil, List.nil_append]
  by_cases he : s.data.isEmpty
  · simp only [he, if_true]
    have : s.data = [] := by
      cases s with
      | mk d => cases d with
        | nil => rfl
        | cons a t => simp [List.isEmpty] at he
    cases s
    simp_all
  · simp only [he, Bool.false_eq_true, if_false]
    rw [str_mk_data, prose_plain_noop s (fun c hc => ⟨(h c hc).2.2.1, (h c hc).2.2.2.1⟩)]

/-- The stable sample of a 2001-character text: first 2000, middle 2000 and
last 2000 characters, concatenated. -/
theorem sample_shape (x : Char) (hlen : listLen (List.replicate 2000 'a' ++ [x]) = 2001) :
    _stable_sample (String.mk (List.replicate 2000 'a' ++ [x])) 2000 =
      String.mk (List.replicate 5999 'a' ++ [x]) := by
  simp only [_stable_sample]
  rw [hlen, if_neg (by norm_num)]
  have e1 : pySlice (List.replicate 2000 'a' ++ [x]) 0 2000 = List.replicate 2000 'a' := by
    rw [pySlice, List.drop_zero, show (2000 : Nat) - 0 = 2000 from rfl,
        List.take_left' (by simp)]
  have e3 : pySlice (List.replicate 2000 'a' ++ [x]) (2001 - 2000) 2001 =
      List.replicate 1999 'a' ++ [x] := by
    rw [pySlice, show (2001 : Nat) - 2000 = 1 from rfl,
        show (List.replicate 2000 'a' : List Char) = 'a' :: List.replicate 1999 'a' from rfl,
        List.cons_append, List.drop_succ_cons, List.drop_zero,
        show (2001 : Nat) - 1 = 2000 from rfl,
        List.take_of_length_le (by simp)]
  rw [e1, e3, ← List.replicate_add, ← List.append_assoc, ← List.replicate_add]

theorem flatten_replicate_single (n : Nat) (b : Nat) :
    (List.replicate n ([b] : List Nat)).flatten = List.replicate n b := by
  induction n with
  | zero => rfl
  | succ n ih => simp [List.replicate_succ, ih]

/-- UTF-8 bytes of the hashed content, in compact `replicate` form. -/
theorem utf8_content (x : Char) (ux : Nat) (hux : utf8Char x = [ux]) :
    utf8Bytes ("Doc" ++ String.mk (List.replicate 5999 'a' ++ [x])) =
      [68, 111, 99] ++ (List.replicate 5999 97 ++ [ux]) := by
  have hd : ("Doc" ++ String.mk (List.replicate 5999 'a' ++ [x])).data =
      'D' :: 'o' :: 'c' :: (List.replicate 5999 'a' ++ [x]) := rfl
  rw [utf8Bytes, hd]
  simp only [List.map_cons, List.map_append, List.map_replicate, hux,
    List.flatten_cons, List.flatten_append]
  rw [show utf8Char 'a' = [97] from rfl, flatten_replicate_single,
      show utf8Char 'D' = [68] from rfl, show utf8Char 'o' = [111] from rfl,
      show utf8Char 'c' = [99] from rfl,
      show (List.map utf8Char ([] : List Char)).flatten = [] from rfl,
      List.append_nil]
  simp only [List.singleton_append, List.cons_append, List.nil_append]

theorem c1mem (x : Char) : ∀ c ∈ (List.replicate 2000 'a' ++ [x] : List Char),
    c = 'a' ∨ c = x := by
  intro c hc
  rcases List.mem_append.mp hc with h | h
  · exact Or.inl (List.eq_of_mem_replicate h)
  · exact Or.inr (List.mem_singleton.mp h)

theorem ntcs_c1 (x : Char) (hx : x = 'b' ∨ x = 'c') :
    normalize_text_code_safe id (String.mk (List.replicate 2000 'a' ++ [x])) =
      String.mk (List.replicate 2000 'a' ++ [x]) := by
  apply ntcs_plain_noop
  intro c hc
  rcases c1mem x c hc with rfl | rfl
  · exact ⟨by decide, by decide, by decide, by decide, by decide, by decide⟩
  · rcases hx with rfl | rfl
    · exact ⟨by decide, by decide, by decide, by decide, by decide, by decide⟩
    · exact ⟨by decide, by decide, by decide, by decide, by decide, by decide⟩

theorem stripEmpty_c1 (x : Char) (hx : pyIsSpaceChar x = false) :
    pyStripEmpty (String.mk (List.replicate 2000 'a' ++ [x])) = false := by
  rw [pyStripEmpty,
      show (String.mk (List.replicate 2000 'a' ++ [x])).data =
        List.replicate 2000 'a' ++ [x] from rfl,
      pyStripList_noop _ (fun c hc => by
        rcases c1mem x c hc with rfl | rfl
        · decide
        · exact hx),
      show (List.replicate 2000 'a' : List Char) = 'a' :: List.replicate 1999 'a' from rfl,
      List.cons_append]
  rfl

/-- A successful `.txt` extraction, assembled symbolically: the record's
full hash is the stable hash of the normalized title plus the stable sample
of the (normalization-invariant) text. -/
theorem psf_txt_full (env : Env) (p idPre t : String)
    (hext : pyExt p = ".txt")
    (hread : env.readTxt p = .ok t)
    (hnorm : normalize_text_code_safe env.nfkcF t = t)
    (hne : pyStripEmpty t = false) :
    ∃ sid, process_single_file env p idPre = some (p, .ok
      ⟨sid,
       stable_hash (normalize_text_code_safe env.nfkcF
         (_normalize_title_from_path env.nfkcF p) ++ _stable_sample t 2000),
       _normalize_title_from_path env.nfkcF p, t⟩) := by
  have hex : extract_text_from_txt env p = .ok t := by
    rw [extract_text_from_txt, hread]
    simp only [hnorm, hne, Bool.false_eq_true, if_false]
  obtain ⟨sid, hsid⟩ := generate_short_id_stable_hash
    (normalize_text_code_safe env.nfkcF (_normalize_title_from_path env.nfkcF p) ++
      _stable_sample t 2000) idPre 6
  refine ⟨sid, ?_⟩
  simp only [process_single_file]
  have hext' : pyLower (String.mk (splitextBase (basenamePosix p).data).2) = ".txt" := hext
  rw [hext', if_pos (by decide),
      show dispatchExtractor env ".txt" p = extract_text_from_txt env p from rfl, hex]
  dsimp only
  rw [hne]
  simp only [Bool.false_eq_true, if_false]
  rw [hsid]

set_option maxHeartbeats 12000000 in
/-- The digest of the first fixture's hashed content. -/
theorem c1hashA :
    sha256hex ([68, 111, 99] ++ (List.replicate 5999 97 ++ [98])) =
      "dfaecaa2be468317952e8a219b71e8fb2d7ffa7feb504f6452bc883e603b439f" :=
  of_decide_eq_true rfl

set_option maxHeartbeats 12000000 in
/-- The digest of the second fixture's hashed content: it differs. -/
theorem c1hashB :
    sha256hex ([68, 111, 99] ++ (List.replicate 5999 97 ++ [99])) =
      "f44206f573b30b16d31d5259b97c032812fbbf2309bafc46871e023fc2065095" :=
  of_decide_eq_true rfl

/-- C1 refuted: the two plain-text documents `c1t1` and `c1t2` have the same
title `"Doc"` and identical first-2000-character content, yet
`process_single_file` assigns them different DocIDs — `_stable_sample` also
samples the middle and the tail of the text, and the fixtures differ in
their 2001st character.  Both extractions succeed: each full hash is the
explicit digest shown. -/
theorem C1_counterexample :
    _normalize_title_from_path c1env.nfkcF "p/Doc.txt" = "Doc" ∧
    _normalize_title_from_path c1env.nfkcF "q/Doc.txt" = "Doc" ∧
    c1t1.data.take 2000 = c1t2.data.take 2000 ∧
    c1t1 ≠ c1t2 ∧
    fullHashOf (process_single_file c1env "p/Doc.txt" "DOC") =
      "sha256-dfaecaa2be468317952e8a219b71e8fb2d7ffa7feb504f6452bc883e603b439f" ∧
    fullHashOf (process_single_file c1env "q/Doc.txt" "DOC") =
      "sha256-f44206f573b30b16d31d5259b97c032812fbbf2309bafc46871e023fc2065095" ∧
    ("sha256-dfaecaa2be468317952e8a219b71e8fb2d7ffa7feb504f6452bc883e603b439f" : String) ≠
      "sha256-f44206f573b30b16d31d5259b97c032812fbbf2309bafc46871e023fc2065095" := by
  obtain ⟨sid1, h1⟩ := psf_txt_full c1env "p/Doc.txt" "DOC" c1t1
    (by decide) rfl (ntcs_c1 'b' (Or.inl rfl)) (stripEmpty_c1 'b' (by decide))
  obtain ⟨sid2, h2⟩ := psf_txt_full c1env "q/Doc.txt" "DOC" c1t2
    (by decide) rfl (ntcs_c1 'c' (Or.inr rfl)) (stripEmpty_c1 'c' (by decide))
  refine ⟨by decide, by decide, ?_, ?_, ?_, ?_, by decide⟩
  · show (List.replicate 2000 'a' ++ ['b']).take 2000 =
      (List.replicate 2000 'a' ++ ['c']).take 2000
    rw [List.take_left' (by simp), List.take_left' (by simp)]
  · intro h
    have hd : (List.replicate 2000 'a' ++ ['b'] : List Char) =
        List.replicate 2000 'a' ++ ['c'] := congrArg String.data h
    have h2 := List.append_cancel_left hd
    simp at h2
  · rw [h1]
    show stable_hash (normalize_text_code_safe c1env.nfkcF
        (_normalize_title_from_path c1env.nfkcF "p/Doc.txt") ++ _stable_sample c1t1 2000) = _
    rw [show _normalize_title_from_path c1env.nfkcF "p/Doc.txt" = "Doc" from by decide,
        show normalize_text_code_safe c1env.nfkcF "Doc" = "Doc" from by decide,
        show c1t1 = String.mk (List.replicate 2000 'a' ++ ['b']) from rfl,
        sample_shape 'b' (of_decide_eq_true rfl),
        stable_hash, utf8_content 'b' 98 rfl, c1hashA]
    rfl
  · rw [h2]
    show stable_hash (normalize_text_code_safe c1env.nfkcF
        (_normalize_title_from_path c1env.nfkcF "q/Doc.txt") ++ _stable_sample c1t2 2000) = _
    rw [show _normalize_title_from_path c1env.nfkcF "q/Doc.txt" = "Doc" from by decide,
        show normalize_text_code_safe c1env.nfkcF "Doc" = "Doc" from by decide,
        show c1t2 = String.mk (List.replicate 2000 'a' ++ ['c']) from rfl,
        sample_shape 'c' (of_decide_eq_true rfl),
        stable_hash, utf8_content 'c' 99 rfl, c1hashB]
    rfl

end KnowledgePrep
